import Mathlib

/-!
Verification of the partition-metadata algorithms of `dask/dataframe/multi.py`
(partitioned joins, hash joins and indexed concatenation).

The module is embedded shallowly at the metadata level: a dataset is its name
together with its `divisions` (BoundarySet); the alignment matrix is a list of
rows, one slot per input, each slot an `Option Nat` partition index (`none` =
absent).  Python errors (`ValueError` from `min`/`max` of an empty sequence,
`KeyError` from a dict lookup, failed `assert`) are modelled with `Option`.
-/

namespace DaskMulti

/-- The `bisect.bisect_left` function from the Python standard library, used by
`bound`: for a sorted sequence it returns the leftmost insertion point of `x`,
which equals the number of elements strictly below `x`. -/
def bisect_left (seq : List Int) (x : Int) : Nat :=
  seq.countP (fun y => decide (y < x))

/-- The `bisect.bisect_right` function: rightmost insertion point of `x`,
which for a sorted sequence equals the number of elements not above `x`. -/
def bisect_right (seq : List Int) (x : Int) : Nat :=
  seq.countP (fun y => decide (y ≤ x))

/-- Python slice `xs[a:b]` (for `a ≤ b`; clipped at the end of the list). -/
def sliceL {α : Type} (xs : List α) (a b : Nat) : List α :=
  (xs.drop a).take (b - a)

/-- `bound(seq, left, right)`: bound a sorted list by `left` and `right`,
`seq[bisect_left(seq, left) : bisect_right(seq, right)]`. -/
def bound (seq : List Int) (left right : Int) : List Int :=
  sliceL seq (bisect_left seq left) (bisect_right seq right)

/-- Structural worker for the binary merge of two sorted lists: the fuel
argument only makes the recursion structural and is always called with a
sufficient amount (the sum of the lengths), so the fuel-exhausted branch is
unreachable. -/
def merge2Fuel : Nat → List Int → List Int → List Int
  | _, [], ys => ys
  | _, x :: xs, [] => x :: xs
  | 0, x :: xs, y :: ys => x :: xs ++ y :: ys
  | fuel + 1, x :: xs, y :: ys =>
    if x ≤ y then x :: merge2Fuel fuel xs (y :: ys)
    else y :: merge2Fuel fuel (x :: xs) ys

/-- Binary merge of two sorted lists, the building block used to realize
`toolz.merge_sorted` on a list of sorted sequences. -/
def merge2 (xs ys : List Int) : List Int :=
  merge2Fuel (xs.length + ys.length) xs ys

/-- `toolz.merge_sorted(*seqs)`: k-way merge of sorted sequences, realized as
a fold of binary merges (same elements, sorted output). -/
def merge_sorted (seqs : List (List Int)) : List Int :=
  seqs.foldr merge2 []

/-- Worker for `unique`, carrying the set of already-seen values. -/
def uniqueAux (seen : List Int) : List Int → List Int
  | [] => []
  | x :: xs => if x ∈ seen then uniqueAux seen xs else x :: uniqueAux (x :: seen) xs

/-- `toolz.unique`: drop every value already seen, keeping first occurrences
in order. -/
def unique (xs : List Int) : List Int := uniqueAux [] xs

/-- Partition metadata of a `dask.dataframe.core.DataFrame`: its task-graph
name and its `divisions` (the BoundarySet). -/
structure DDF where
  name : Nat
  divisions : List Int
deriving DecidableEq

/-- Modelled from the spec: `repartition` lives in `dask.dataframe.core`, not
in this module.  Per §6 (Repartition-by-boundaries), it returns a dataset
whose BoundarySet equals the given boundary sequence, preserving rows; at the
metadata level embedded here it replaces the divisions. -/
def repartition (df : DDF) (divisions : List Int) : DDF :=
  { name := df.name, divisions := divisions }

/-- Modelled from the spec: `DataFrame.npartitions` lives in
`dask.dataframe.core`, not in this module.  Per the data-model invariant
(every BoundarySet has length partition count + 1) it is the length of the
divisions minus one. -/
def DDF.npartitions (df : DDF) : Nat := df.divisions.length - 1

/-- One slot of one step of the cursor walk in `align`: the Python condition
`j < len(divs) - 1 and divs[j] == d` decides presence; on presence the cursor
advances.  Returns the recorded entry and the new cursor. -/
def stepSlot (divs : List Int) (j : Nat) (d : Int) : Option Nat × Nat :=
  if j + 1 < divs.length ∧ divs[j]? = some d then (some j, j + 1) else (none, j)

/-- The cursor walk of `align` over `divisions[:-1]`: one row per common
boundary interval, one slot per input. -/
def alignWalk (divss : List (List Int)) : List Int → List Nat → List (List (Option Nat))
  | [], _ => []
  | d :: ds, inds =>
    (List.zipWith (fun divs j => (stepSlot divs j d).1) divss inds) ::
      alignWalk divss ds (List.zipWith (fun divs j => (stepSlot divs j d).2) divss inds)

/-- `align(*dfs)`: merge of all inputs' divisions (deduplicated), the bounded
per-input division slices, the repartitioned datasets and the alignment
matrix produced by the cursor walk. -/
def align (dfs : List DDF) : List DDF × List Int × List (List (Option Nat)) :=
  let divisions := unique (merge_sorted (dfs.map DDF.divisions))
  let divisionss := dfs.map
    (fun df => bound divisions df.divisions.headI (df.divisions.getLastD 0))
  let dfs2 := List.zipWith repartition dfs divisionss
  let result := alignWalk (dfs2.map DDF.divisions) divisions.dropLast
    (List.replicate dfs.length 0)
  (dfs2, divisions, result)

/-- `[j for j, p in enumerate(parts) if p[i] is not None]` inside `require`. -/
def present (parts : List (List (Option Nat))) (i : Nat) : List Nat :=
  (List.range parts.length).filter (fun j => ((parts.getD j []).getD i none).isSome)

/-- One iteration of the loop in `require`: narrow `divisions`/`parts` to the
presence range of slot `i`.  `none` models the `ValueError` Python's `min`
(and `max`) raise on an empty sequence. -/
def narrow (divisions : List Int) (parts : List (List (Option Nat))) (i : Nat) :
    Option (List Int × List (List (Option Nat))) :=
  match (present parts i).min?, (present parts i).max? with
  | some mn, some mx => some (sliceL divisions mn (mx + 2), sliceL parts mn (mx + 1))
  | _, _ => none

/-- The loop of `require` over the required slot indices. -/
def requireGo : List Nat → List Int × List (List (Option Nat)) →
    Option (List Int × List (List (Option Nat)))
  | [], dp => some dp
  | i :: rest, dp =>
    match narrow dp.1 dp.2 i with
    | none => none
    | some dp2 => requireGo rest dp2

/-- `require(divisions, parts, required)`: clear out divisions where required
components are not present.  An empty `required` returns the inputs unchanged
(the `if not required` early return). -/
def require (divisions : List Int) (parts : List (List (Option Nat)))
    (requiredSlots : List Nat) : Option (List Int × List (List (Option Nat))) :=
  if requiredSlots.isEmpty then some (divisions, parts)
  else requireGo requiredSlots (divisions, parts)

/-- The module-level dict `required = {'left': [0], 'right': [1],
'inner': [0, 1], 'outer': []}`, as a lookup returning `none` (Python
`KeyError`) on any other key. -/
def required (how : String) : Option (List Nat) :=
  if how = "left" then some [0]
  else if how = "right" then some [1]
  else if how = "inner" then some [0, 1]
  else if how = "outer" then some []
  else none

/-- The task descriptor emitted for one alignment row by
`join_indexed_dataframes`: a join of two present partitions, a join of a
present partition against an empty placeholder, or the `None` fallthrough. -/
inductive JoinTask where
  | bothT (a b : Nat)
  | leftOnly (a : Nat)
  | rightOnly (b : Nat)
  | noneT
deriving DecidableEq

/-- The conditional chain that builds one task of the `dsk` dict in
`join_indexed_dataframes` from one pruned alignment row. -/
def taskFor (how : String) (row : List (Option Nat)) : JoinTask :=
  match row.getD 0 none, row.getD 1 none with
  | some a, some b => JoinTask.bothT a b
  | some a, none =>
    if how = "left" ∨ how = "outer" then JoinTask.leftOnly a else JoinTask.noneT
  | none, some b =>
    if how = "right" ∨ how = "outer" then JoinTask.rightOnly b else JoinTask.noneT
  | none, none => JoinTask.noneT

/-- `join_indexed_dataframes(lhs, rhs, how)` at the metadata level: align,
look up the required slots (`none` models the `KeyError` an unknown `how`
raises at `required[how]`), prune, and emit one task per surviving row.
Returns the result's divisions and its task list. -/
def join_indexed_dataframes (lhs rhs : DDF) (how : String) :
    Option (List Int × List JoinTask) :=
  match required how with
  | none => none
  | some req =>
    match require ((align [lhs, rhs]).2.1) ((align [lhs, rhs]).2.2) req with
    | none => none
    | some (d2, p2) => some (d2, p2.map (taskFor how))

/-- Events a builder performs, in program order, used to express *when* an
unsupported join kind is rejected relative to the alignment work. -/
inductive BuildEvent where
  | alignEv
  | requireEv
  | emitEv
  | raiseEv
deriving DecidableEq

/-- The event trace of `join_indexed_dataframes`: line 164 runs `align`
before line 165 evaluates `required[how]`, so an unknown `how` raises its
`KeyError` only after the alignment work. -/
def join_indexed_events (lhs rhs : DDF) (how : String) : List BuildEvent :=
  BuildEvent.alignEv ::
    (match required how with
     | none => [BuildEvent.raiseEv]
     | some req =>
       BuildEvent.requireEv ::
         (match require ((align [lhs, rhs]).2.1) ((align [lhs, rhs]).2.2)
             req with
          | none => [BuildEvent.raiseEv]
          | some _ => [BuildEvent.emitEv]))

/-- `concat_indexed_dataframes(dfs, join)` at the metadata level: the assert
on `join` runs before `align`; the result keeps the unpruned common divisions
and one concat task (its row) per alignment row. -/
def concat_indexed_dataframes (dfs : List DDF) (join : String) :
    Option (List Int × List (List (Option Nat))) :=
  if join = "inner" ∨ join = "outer" then
    some ((align dfs).2.1, (align dfs).2.2)
  else none

/-- The event trace of `concat_indexed_dataframes`: the `assert join in
('inner', 'outer')` on line 220 precedes the `align` call on line 221. -/
def concat_indexed_events (dfs : List DDF) (join : String) : List BuildEvent :=
  if join = "inner" ∨ join = "outer" then
    let _ := align dfs
    [BuildEvent.alignEv, BuildEvent.emitEv]
  else [BuildEvent.raiseEv]

/-- The cursor walk of `align` restricted to a single input slot: the same
per-slot state machine as `alignWalk`, tracked for one `divs`/cursor pair. -/
def walk1 (divs : List Int) : List Int → Nat → List (Option Nat)
  | [], _ => []
  | d :: ds, j => (stepSlot divs j d).1 :: walk1 divs ds (stepSlot divs j d).2

/-- Re-derivation of one input's boundary sequence from the alignment matrix:
the common boundary of every row where slot `k` is present, plus the closing
boundary (the common boundary following the last present row). -/
def deriveBoundaries (divisions : List Int) (M : List (List (Option Nat)))
    (k : Nat) : List Int :=
  ((List.range M.length).filter
      (fun r => ((M.getD r []).getD k none).isSome)).map
    (fun r => divisions.getD r 0) ++
    (match ((List.range M.length).filter
        (fun r => ((M.getD r []).getD k none).isSome)).getLast? with
     | some r => [divisions.getD (r + 1) 0]
     | none => [])

/-- The metadata of a `hash_join` result: the bucket count actually used, the
reported divisions, and the per-bucket task list (left bucket paired with
right bucket of the same index).  The `shuffle` collaborator is external
(`dask.dataframe.shuffle`); per §6 it returns exactly `npartitions` buckets. -/
structure HashJoinMeta where
  npartitions : Nat
  divisions : List (Option Int)
  tasks : List (Nat × Nat)
deriving DecidableEq

/-- `hash_join(lhs, on_left, rhs, on_right, how, npartitions)` at the
metadata level: the default bucket count is the max of the inputs' partition
counts; the output divisions are `[None] * (npartitions + 1)`; one merge task
per bucket index. -/
def hash_join (lhs rhs : DDF) (npartitionsArg : Option Nat) : HashJoinMeta :=
  let npartitions :=
    match npartitionsArg with
    | none => max lhs.npartitions rhs.npartitions
    | some n => n
  { npartitions := npartitions
    divisions := List.replicate (npartitions + 1) none
    tasks := (List.range npartitions).map (fun i => (i, i)) }

/-! ### Generic lemmas about slices -/

theorem sliceL_getElem? {α : Type} (xs : List α) (a b i : Nat) :
    (sliceL xs a b)[i]? = if i < b - a then xs[a + i]? else none := by
  unfold sliceL
  rw [List.getElem?_take]
  split
  · rw [List.getElem?_drop]
  · rfl

theorem sliceL_length {α : Type} (xs : List α) (a b : Nat) :
    (sliceL xs a b).length = min (b - a) (xs.length - a) := by
  unfold sliceL
  simp [List.length_take, List.length_drop]

theorem sliceL_sublist {α : Type} (xs : List α) (a b : Nat) :
    (sliceL xs a b).Sublist xs :=
  ((xs.drop a).take_sublist _).trans (xs.drop_sublist a)

theorem mem_sliceL {α : Type} {xs : List α} {a b : Nat} {x : α}
    (h : x ∈ sliceL xs a b) : ∃ r, a ≤ r ∧ r < b ∧ xs[r]? = some x := by
  obtain ⟨q, hq, hget⟩ := List.getElem_of_mem h
  have hq' : (sliceL xs a b)[q]? = some x := by
    rw [List.getElem?_eq_getElem hq, hget]
  rw [sliceL_getElem? xs a b q] at hq'
  by_cases hlt : q < b - a
  · rw [if_pos hlt] at hq'
    exact ⟨a + q, Nat.le_add_right a q, by omega, hq'⟩
  · rw [if_neg hlt] at hq'
    exact absurd hq' (by simp)

theorem sliceL_sliceL {α : Type} (xs : List α) (a b c d : Nat) :
    sliceL (sliceL xs a b) c d = sliceL xs (a + c) (min b (a + d)) := by
  apply List.ext_getElem?
  intro q
  rw [sliceL_getElem? (sliceL xs a b) c d q,
    sliceL_getElem? xs (a + c) (min b (a + d)) q]
  by_cases h1 : q < d - c
  · rw [if_pos h1, sliceL_getElem? xs a b (c + q)]
    by_cases h2 : c + q < b - a
    · rw [if_pos h2, if_pos (by omega)]
      congr 1
      omega
    · rw [if_neg h2, if_neg (by omega)]
  · rw [if_neg h1, if_neg (by omega)]

/-! ### Lemmas about `merge2`, `merge_sorted` and `unique` -/

theorem merge2Fuel_nil_left (f : Nat) (ys : List Int) :
    merge2Fuel f [] ys = ys := by
  cases f <;> rfl

theorem merge2Fuel_cons_nil (f : Nat) (x : Int) (xs : List Int) :
    merge2Fuel f (x :: xs) [] = x :: xs := by
  cases f <;> rfl

theorem merge2Fuel_succ_cons_cons (f : Nat) (x y : Int) (xs ys : List Int) :
    merge2Fuel (f + 1) (x :: xs) (y :: ys)
      = if x ≤ y then x :: merge2Fuel f xs (y :: ys)
        else y :: merge2Fuel f (x :: xs) ys := rfl

theorem merge2Fuel_sufficient : ∀ (f1 : Nat) (xs ys : List Int) (f2 : Nat),
    xs.length + ys.length ≤ f1 → xs.length + ys.length ≤ f2 →
    merge2Fuel f1 xs ys = merge2Fuel f2 xs ys := by
  intro f1
  induction f1 with
  | zero =>
    intro xs ys f2 h1 h2
    cases xs with
    | nil => rw [merge2Fuel_nil_left, merge2Fuel_nil_left]
    | cons x xs =>
      cases ys with
      | nil => rw [merge2Fuel_cons_nil, merge2Fuel_cons_nil]
      | cons y ys => simp at h1
  | succ f1 ih =>
    intro xs ys f2 h1 h2
    cases xs with
    | nil => rw [merge2Fuel_nil_left, merge2Fuel_nil_left]
    | cons x xs =>
      cases ys with
      | nil => rw [merge2Fuel_cons_nil, merge2Fuel_cons_nil]
      | cons y ys =>
        cases f2 with
        | zero => simp at h2
        | succ f2 =>
          rw [merge2Fuel_succ_cons_cons, merge2Fuel_succ_cons_cons]
          simp only [List.length_cons] at h1 h2
          by_cases hxy : x ≤ y
          · rw [if_pos hxy, if_pos hxy,
              ih xs (y :: ys) f2 (by simp only [List.length_cons]; omega)
                (by simp only [List.length_cons]; omega)]
          · rw [if_neg hxy, if_neg hxy,
              ih (x :: xs) ys f2 (by simp only [List.length_cons]; omega)
                (by simp only [List.length_cons]; omega)]

theorem merge2_nil_left (ys : List Int) : merge2 [] ys = ys :=
  merge2Fuel_nil_left _ ys

theorem merge2_cons_nil (x : Int) (xs : List Int) : merge2 (x :: xs) [] = x :: xs :=
  merge2Fuel_cons_nil _ x xs

theorem merge2_cons_cons (x y : Int) (xs ys : List Int) :
    merge2 (x :: xs) (y :: ys)
      = if x ≤ y then x :: merge2 xs (y :: ys)
        else y :: merge2 (x :: xs) ys := by
  unfold merge2
  rw [show (x :: xs).length + (y :: ys).length
      = ((x :: xs).length + ys.length) + 1 from rfl]
  rw [merge2Fuel_succ_cons_cons]
  by_cases hxy : x ≤ y
  · rw [if_pos hxy, if_pos hxy]
    congr 1
    exact merge2Fuel_sufficient ((x :: xs).length + ys.length) xs (y :: ys)
      (xs.length + (y :: ys).length)
      (by simp only [List.length_cons]; omega)
      (by simp only [List.length_cons]; omega)
  · rw [if_neg hxy, if_neg hxy]

theorem mem_merge2Fuel {x : Int} : ∀ (f : Nat) (xs ys : List Int),
    xs.length + ys.length ≤ f →
    (x ∈ merge2Fuel f xs ys ↔ x ∈ xs ∨ x ∈ ys) := by
  intro f
  induction f with
  | zero =>
    intro xs ys h
    cases xs with
    | nil => rw [merge2Fuel_nil_left]; simp
    | cons a as =>
      cases ys with
      | nil => rw [merge2Fuel_cons_nil]; simp
      | cons b bs => simp at h
  | succ f ih =>
    intro xs ys h
    cases xs with
    | nil => rw [merge2Fuel_nil_left]; simp
    | cons a as =>
      cases ys with
      | nil => rw [merge2Fuel_cons_nil]; simp
      | cons b bs =>
        rw [merge2Fuel_succ_cons_cons]
        simp only [List.length_cons] at h
        by_cases hab : a ≤ b
        · rw [if_pos hab]
          simp only [List.mem_cons, ih as (b :: bs) (by simp; omega),
            List.mem_cons]
          tauto
        · rw [if_neg hab]
          simp only [List.mem_cons, ih (a :: as) bs (by simp; omega),
            List.mem_cons]
          tauto

theorem mem_merge2 {x : Int} {xs ys : List Int} :
    x ∈ merge2 xs ys ↔ x ∈ xs ∨ x ∈ ys :=
  mem_merge2Fuel _ xs ys (le_refl _)

theorem merge2Fuel_sorted : ∀ (f : Nat) (xs ys : List Int),
    xs.length + ys.length ≤ f →
    xs.Pairwise (· ≤ ·) → ys.Pairwise (· ≤ ·) →
    (merge2Fuel f xs ys).Pairwise (· ≤ ·) := by
  intro f
  induction f with
  | zero =>
    intro xs ys h hx hy
    cases xs with
    | nil => rw [merge2Fuel_nil_left]; exact hy
    | cons a as =>
      cases ys with
      | nil => rw [merge2Fuel_cons_nil]; exact hx
      | cons b bs => simp at h
  | succ f ih =>
    intro xs ys h hx hy
    cases xs with
    | nil => rw [merge2Fuel_nil_left]; exact hy
    | cons a as =>
      cases ys with
      | nil => rw [merge2Fuel_cons_nil]; exact hx
      | cons b bs =>
        rw [merge2Fuel_succ_cons_cons]
        simp only [List.length_cons] at h
        by_cases hab : a ≤ b
        · rw [if_pos hab]
          rw [List.pairwise_cons] at hx ⊢
          refine ⟨?_, ih as (b :: bs) (by simp; omega) hx.2 hy⟩
          intro z hz
          rcases (mem_merge2Fuel f as (b :: bs) (by simp; omega)).1 hz
            with hz | hz
          · exact hx.1 z hz
          · rcases List.mem_cons.1 hz with rfl | hz
            · exact hab
            · exact le_trans hab ((List.pairwise_cons.1 hy).1 z hz)
        · rw [if_neg hab]
          rw [List.pairwise_cons] at hy ⊢
          refine ⟨?_, ih (a :: as) bs (by simp; omega) hx hy.2⟩
          intro z hz
          have hba : b ≤ a := le_of_lt (lt_of_not_le hab)
          rcases (mem_merge2Fuel f (a :: as) bs (by simp; omega)).1 hz
            with hz | hz
          · rcases List.mem_cons.1 hz with rfl | hz
            · exact hba
            · exact le_trans hba ((List.pairwise_cons.1 hx).1 z hz)
          · exact hy.1 z hz

theorem merge2_sorted {xs ys : List Int}
    (hx : xs.Pairwise (· ≤ ·)) (hy : ys.Pairwise (· ≤ ·)) :
    (merge2 xs ys).Pairwise (· ≤ ·) :=
  merge2Fuel_sorted _ xs ys (le_refl _) hx hy

theorem mem_merge_sorted {x : Int} {seqs : List (List Int)} :
    x ∈ merge_sorted seqs ↔ ∃ l ∈ seqs, x ∈ l := by
  induction seqs with
  | nil => simp [merge_sorted]
  | cons l ls ih =>
    unfold merge_sorted at *
    rw [List.foldr_cons, mem_merge2, ih]
    simp

theorem merge_sorted_sorted {seqs : List (List Int)}
    (h : ∀ l ∈ seqs, l.Pairwise (· ≤ ·)) :
    (merge_sorted seqs).Pairwise (· ≤ ·) := by
  induction seqs with
  | nil => simp [merge_sorted]
  | cons l ls ih =>
    unfold merge_sorted at *
    rw [List.foldr_cons]
    exact merge2_sorted (h l (List.mem_cons_self l ls))
      (ih (fun l' hl' => h l' (List.mem_cons_of_mem l hl')))

theorem merge2_append_of_le : ∀ {xs ys : List Int},
    (∀ x ∈ xs, ∀ y ∈ ys, x ≤ y) → merge2 xs ys = xs ++ ys := by
  intro xs
  induction xs with
  | nil => intro ys h; rw [merge2_nil_left]; rfl
  | cons a as ih =>
    intro ys h
    cases ys with
    | nil => rw [merge2_cons_nil, List.append_nil]
    | cons b bs =>
      rw [merge2_cons_cons,
        if_pos (h a (List.mem_cons_self a as) b (List.mem_cons_self b bs)),
        List.cons_append]
      congr 1
      exact ih (fun x hx y hy => h x (List.mem_cons_of_mem a hx) y hy)

theorem merge2_append_of_gt {xs : List Int} : ∀ {ys : List Int},
    (∀ x ∈ xs, ∀ y ∈ ys, y < x) → merge2 xs ys = ys ++ xs := by
  intro ys
  induction ys generalizing xs with
  | nil =>
    intro h
    cases xs with
    | nil => rw [merge2_nil_left]; rfl
    | cons a as => rw [merge2_cons_nil]; rfl
  | cons b bs ih =>
    intro h
    cases xs with
    | nil => rw [merge2_nil_left, List.append_nil]
    | cons a as =>
      rw [merge2_cons_cons,
        if_neg (not_le_of_lt
          (h a (List.mem_cons_self a as) b (List.mem_cons_self b bs))),
        List.cons_append]
      congr 1
      exact ih (fun x hx y hy => h x hx y (List.mem_cons_of_mem b hy))

theorem merge2_nil_right (xs : List Int) : merge2 xs [] = xs := by
  cases xs with
  | nil => rw [merge2_nil_left]
  | cons x xs => rw [merge2_cons_nil]

theorem uniqueAux_sublist (seen : List Int) (xs : List Int) :
    (uniqueAux seen xs).Sublist xs := by
  induction xs generalizing seen with
  | nil => simp [uniqueAux]
  | cons x xs ih =>
    rw [uniqueAux]
    split
    · exact (ih seen).cons x
    · exact (ih (x :: seen)).cons₂ x

theorem mem_uniqueAux {x : Int} (seen xs : List Int) :
    x ∈ uniqueAux seen xs ↔ x ∈ xs ∧ x ∉ seen := by
  induction xs generalizing seen with
  | nil => simp [uniqueAux]
  | cons y ys ih =>
    rw [uniqueAux]
    split
    · rename_i hy
      rw [ih seen]
      simp only [List.mem_cons]
      constructor
      · rintro ⟨h1, h2⟩
        exact ⟨Or.inr h1, h2⟩
      · rintro ⟨rfl | h1, h2⟩
        · exact absurd hy h2
        · exact ⟨h1, h2⟩
    · rename_i hy
      simp only [List.mem_cons, ih (y :: seen)]
      constructor
      · rintro (rfl | ⟨h1, h2⟩)
        · exact ⟨Or.inl rfl, hy⟩
        · exact ⟨Or.inr h1, fun hs => h2 (Or.inr hs)⟩
      · rintro ⟨h1 | h1, h2⟩
        · exact Or.inl h1
        · by_cases hxy : x = y
          · exact Or.inl hxy
          · exact Or.inr ⟨h1, fun hs => hs.elim hxy h2⟩

theorem uniqueAux_nodup (seen xs : List Int) :
    (uniqueAux seen xs).Nodup ∧ ∀ x ∈ uniqueAux seen xs, x ∉ seen := by
  induction xs generalizing seen with
  | nil => simp [uniqueAux]
  | cons y ys ih =>
    rw [uniqueAux]
    split
    · exact ih seen
    · rename_i hy
      obtain ⟨h1, h2⟩ := ih (y :: seen)
      refine ⟨List.nodup_cons.2 ⟨fun hmem => ?_, h1⟩, ?_⟩
      · exact (h2 y hmem) (List.mem_cons_self y seen)
      · intro x hx
        rcases List.mem_cons.1 hx with rfl | hx'
        · exact hy
        · exact fun hs => (h2 x hx') (List.mem_cons_of_mem y hs)

theorem mem_unique {x : Int} {xs : List Int} : x ∈ unique xs ↔ x ∈ xs := by
  rw [unique, mem_uniqueAux]
  simp

theorem unique_sublist (xs : List Int) : (unique xs).Sublist xs :=
  uniqueAux_sublist [] xs

theorem unique_nodup (xs : List Int) : (unique xs).Nodup :=
  (uniqueAux_nodup [] xs).1

theorem unique_strict_sorted {xs : List Int} (h : xs.Pairwise (· ≤ ·)) :
    (unique xs).Pairwise (· < ·) := by
  have hs : (unique xs).Pairwise (· ≤ ·) :=
    List.Pairwise.sublist (unique_sublist xs) h
  have hn : (unique xs).Pairwise (· ≠ ·) := unique_nodup xs
  exact (hs.and hn).imp (fun h => lt_of_le_of_ne h.1 h.2)

theorem uniqueAux_eq_self {seen xs : List Int} (hnd : xs.Nodup)
    (hout : ∀ x ∈ xs, x ∉ seen) : uniqueAux seen xs = xs := by
  induction xs generalizing seen with
  | nil => rfl
  | cons y ys ih =>
    rw [uniqueAux, if_neg (hout y (List.mem_cons_self y ys))]
    rw [List.nodup_cons] at hnd
    congr 1
    refine ih hnd.2 ?_
    intro x hx hmem
    rcases List.mem_cons.1 hmem with rfl | hmem'
    · exact hnd.1 hx
    · exact hout x (List.mem_cons_of_mem y hx) hmem'

theorem unique_eq_self {xs : List Int} (h : xs.Nodup) : unique xs = xs :=
  uniqueAux_eq_self h (by simp)

/-! ### Lemmas about `bisect_left` / `bisect_right` -/

theorem bisect_right_le_length (D : List Int) (x : Int) :
    bisect_right D x ≤ D.length :=
  List.countP_le_length _

theorem bisect_left_le_bisect_right {x y : Int} (D : List Int) (hxy : x ≤ y) :
    bisect_left D x ≤ bisect_right D y := by
  apply List.countP_mono_left
  intro z _ hz
  simp only [decide_eq_true_eq] at *
  omega

theorem bisect_left_getElem {D : List Int} (hD : D.Pairwise (· < ·)) :
    ∀ {i : Nat} (hi : i < D.length), bisect_left D D[i] = i := by
  induction D with
  | nil => intro i hi; simp at hi
  | cons d rest ih =>
    intro i hi
    rw [List.pairwise_cons] at hD
    cases i with
    | zero =>
      simp only [List.getElem_cons_zero]
      rw [bisect_left, List.countP_cons]
      rw [List.countP_eq_zero.2 ?_, if_neg (by simp)]
      intro z hz
      simp only [decide_eq_true_eq]
      exact not_lt_of_gt (hD.1 z hz)
    | succ i =>
      simp only [List.getElem_cons_succ]
      have hi' : i < rest.length := by simpa using hi
      rw [bisect_left, List.countP_cons]
      rw [if_pos (by simp [hD.1 _ (List.getElem_mem hi')])]
      have := ih hD.2 hi'
      rw [bisect_left] at this
      omega

theorem bisect_right_getElem {D : List Int} (hD : D.Pairwise (· < ·)) :
    ∀ {i : Nat} (hi : i < D.length), bisect_right D D[i] = i + 1 := by
  induction D with
  | nil => intro i hi; simp at hi
  | cons d rest ih =>
    intro i hi
    rw [List.pairwise_cons] at hD
    cases i with
    | zero =>
      simp only [List.getElem_cons_zero]
      rw [bisect_right, List.countP_cons]
      rw [List.countP_eq_zero.2 ?_, if_pos (by simp)]
      intro z hz
      simp only [decide_eq_true_eq]
      exact not_le_of_lt (hD.1 z hz)
    | succ i =>
      simp only [List.getElem_cons_succ]
      have hi' : i < rest.length := by simpa using hi
      rw [bisect_right, List.countP_cons]
      rw [if_pos (by simp [le_of_lt (hD.1 _ (List.getElem_mem hi'))])]
      have := ih hD.2 hi'
      rw [bisect_right] at this
      omega

/-! ### Lemmas about sorted lists, heads and lasts -/

theorem headI_le_of_mem {l : List Int} (h : l.Pairwise (· ≤ ·)) :
    ∀ x ∈ l, l.headI ≤ x := by
  cases l with
  | nil => intro x hx; simp at hx
  | cons y ys =>
    intro x hx
    rw [List.pairwise_cons] at h
    rcases List.mem_cons.1 hx with rfl | hx'
    · exact le_refl _
    · exact h.1 x hx'

theorem le_getLastD_of_mem {l : List Int} (h : l.Pairwise (· ≤ ·)) :
    ∀ x ∈ l, x ≤ l.getLastD 0 := by
  induction l with
  | nil => intro x hx; simp at hx
  | cons y ys ih =>
    intro x hx
    rw [List.pairwise_cons] at h
    cases ys with
    | nil =>
      rcases List.mem_cons.1 hx with rfl | hx'
      · simp
      · simp at hx'
    | cons z zs =>
      have hlast : (y :: z :: zs).getLastD 0 = (z :: zs).getLastD 0 := rfl
      rw [hlast]
      rcases List.mem_cons.1 hx with rfl | hx'
      · calc x ≤ z := h.1 z (List.mem_cons_self z zs)
          _ ≤ (z :: zs).getLastD 0 :=
            ih h.2 z (List.mem_cons_self z zs)
      · exact ih h.2 x hx'

theorem headI_le_getLastD {l : List Int} (h : l.Pairwise (· ≤ ·)) :
    l.headI ≤ l.getLastD 0 := by
  cases l with
  | nil => simp
  | cons y ys =>
    exact le_getLastD_of_mem h _ (List.mem_cons_self y ys)

theorem headI_mem {l : List Int} (h : l ≠ []) : l.headI ∈ l := by
  cases l with
  | nil => exact absurd rfl h
  | cons y ys => exact List.mem_cons_self y ys

theorem getLastD_mem {l : List Int} (h : l ≠ []) : l.getLastD 0 ∈ l := by
  rw [List.getLastD_eq_getLast?, List.getLast?_eq_getLast l h]
  exact List.getLast_mem h

/-! ### Lemmas about ranges and filters -/

theorem filter_range_interval (lo hi : Nat) : ∀ n : Nat,
    (List.range n).filter (fun r => decide (lo ≤ r) && decide (r < hi))
      = List.range' lo (min hi n - lo) := by
  intro n
  induction n with
  | zero => simp
  | succ n ih =>
    rw [List.range_succ, List.filter_append, ih]
    by_cases hcase : lo ≤ n ∧ n < hi
    · have h1 : min hi (n + 1) = n + 1 := by omega
      have h2 : min hi n = n := by omega
      rw [h1, h2]
      have h3 : (List.filter (fun r => decide (lo ≤ r) && decide (r < hi)) [n])
          = [n] := by
        simp [hcase.1, hcase.2]
      rw [h3]
      have happ := List.range'_append lo (n - lo) 1 1
      rw [show lo + 1 * (n - lo) = n by omega] at happ
      rw [show List.range' n 1 = [n] by simp] at happ
      rw [happ]
      congr 1
      omega
    · have h3 : (List.filter (fun r => decide (lo ≤ r) && decide (r < hi)) [n])
          = [] := by
        simp only [List.filter_cons, List.filter_nil]
        rw [if_neg]
        simp only [Bool.and_eq_true, decide_eq_true_eq]
        exact hcase
      rw [h3, List.append_nil]
      congr 1
      omega

theorem map_getD_range' (D : List Int) : ∀ (m s : Nat), s + m ≤ D.length →
    (List.range' s m).map (fun r => D.getD r 0) = sliceL D s (s + m) := by
  intro m
  induction m with
  | zero => intro s h; simp [sliceL]
  | succ m ih =>
    intro s h
    have hs : s < D.length := by omega
    rw [List.range'_succ, List.map_cons]
    rw [ih (s + 1) (by omega)]
    have hgd : D.getD s 0 = D[s] := by
      rw [List.getD_eq_getElem?_getD, List.getElem?_eq_getElem hs]
      rfl
    rw [hgd]
    unfold sliceL
    rw [List.drop_eq_getElem_cons hs]
    have h1 : s + (m + 1) - s = m + 1 := by omega
    have h2 : s + 1 + m - (s + 1) = m := by omega
    rw [h1, h2, List.take_succ_cons]

theorem getLast?_range' : ∀ (m s : Nat), 0 < m →
    (List.range' s m).getLast? = some (s + m - 1) := by
  intro m
  induction m with
  | zero => intro s h; omega
  | succ m ih =>
    intro s _
    cases m with
    | zero => simp
    | succ k =>
      rw [List.range'_succ, List.range'_succ, List.getLast?_cons_cons]
      rw [← List.range'_succ]
      rw [ih (s + 1) (by omega)]
      congr 1
      omega

/-! ### The cursor walk of `align`: per-slot characterization -/

theorem walk1_length (divs : List Int) : ∀ (ds : List Int) (j : Nat),
    (walk1 divs ds j).length = ds.length := by
  intro ds
  induction ds with
  | nil => intro j; rfl
  | cons d ds ih =>
    intro j
    rw [walk1, List.length_cons, ih]
    rfl

theorem alignWalk_length (divss : List (List Int)) :
    ∀ (ds : List Int) (inds : List Nat),
    (alignWalk divss ds inds).length = ds.length := by
  intro ds
  induction ds with
  | nil => intro inds; rfl
  | cons d ds ih =>
    intro inds
    rw [alignWalk, List.length_cons, ih]
    rfl

theorem zipWith_getD {α β γ : Type} (f : α → β → γ) (xs : List α) (ys : List β)
    (k : Nat) (hx : k < xs.length) (hy : k < ys.length) (da : α) (db : β)
    (dc : γ) :
    (List.zipWith f xs ys).getD k dc = f (xs.getD k da) (ys.getD k db) := by
  rw [List.getD_eq_getElem?_getD, List.getD_eq_getElem?_getD,
    List.getD_eq_getElem?_getD]
  rw [List.getElem?_zipWith, List.getElem?_eq_getElem hx,
    List.getElem?_eq_getElem hy]
  rfl

theorem alignWalk_col (divss : List (List Int)) (k : Nat)
    (hk : k < divss.length) :
    ∀ (ds : List Int) (inds : List Nat), inds.length = divss.length →
    ∀ (r : Nat),
    ((alignWalk divss ds inds).getD r []).getD k none
      = (walk1 (divss.getD k []) ds (inds.getD k 0)).getD r none := by
  intro ds
  induction ds with
  | nil =>
    intro inds hlen r
    rw [alignWalk, walk1]
    rfl
  | cons d ds ih =>
    intro inds hlen r
    have hki : k < inds.length := by omega
    cases r with
    | zero =>
      rw [alignWalk, walk1, List.getD_cons_zero, List.getD_cons_zero]
      rw [zipWith_getD _ divss inds k hk hki [] 0 none]
    | succ r =>
      rw [alignWalk, walk1, List.getD_cons_succ, List.getD_cons_succ]
      have hcur : (List.zipWith (fun divs j => (stepSlot divs j d).2)
          divss inds).getD k 0
          = (stepSlot (divss.getD k []) (inds.getD k 0) d).2 :=
        zipWith_getD _ divss inds k hk hki [] 0 0
      rw [ih (List.zipWith (fun divs j => (stepSlot divs j d).2) divss inds)
          (by rw [List.length_zipWith]; omega) r, hcur]

theorem walk1_char {D : List Int} (hD : D.Pairwise (· < ·)) {a b : Nat}
    (hab : a ≤ b) (hbD : b ≤ D.length) : ∀ (n p : Nat), p + n = D.length - 1 →
    walk1 (sliceL D a b) (D.dropLast.drop p) (min (p - a) (b - a - 1))
      = (List.range' p n).map
          (fun r => if a ≤ r ∧ r + 1 < b then some (r - a) else none) := by
  intro n
  induction n with
  | zero =>
    intro p hp
    have hnil : D.dropLast.drop p = [] := by
      apply List.drop_eq_nil_of_le
      rw [List.length_dropLast]
      omega
    rw [hnil, walk1]
    simp
  | succ n ih =>
    intro p hp
    have hplt : p < D.length - 1 := by omega
    have hpd : p < D.dropLast.length := by rw [List.length_dropLast]; omega
    have hpD : p < D.length := by omega
    have hdl : D.dropLast[p] = D[p] := by
      have hq := List.getElem?_dropLast D p
      rw [if_pos hplt, List.getElem?_eq_getElem hpd,
        List.getElem?_eq_getElem hpD] at hq
      exact Option.some.inj hq
    have hslen : (sliceL D a b).length = b - a := by
      rw [sliceL_length]
      omega
    rw [List.drop_eq_getElem_cons hpd, hdl, walk1, List.range'_succ,
      List.map_cons]
    by_cases hpa : p < a
    · have hC : ¬(0 + 1 < (sliceL D a b).length
          ∧ (sliceL D a b)[0]? = some D[p]) := by
        rintro ⟨hc1, hc2⟩
        rw [hslen] at hc1
        rw [sliceL_getElem? D a b 0, if_pos (by omega)] at hc2
        have haD : a < D.length := by omega
        rw [List.getElem?_eq_getElem (by omega : a + 0 < D.length)] at hc2
        have hlt : D[p] < D[a] :=
          List.pairwise_iff_getElem.1 hD p a hpD haD hpa
        have heq : D[a + 0] = D[p] := Option.some.inj hc2
        have haa : D[a + 0] = D[a] := rfl
        rw [haa] at heq
        omega
      have hj : min (p - a) (b - a - 1) = 0 := by omega
      have hstep : stepSlot (sliceL D a b) 0 D[p] = (none, 0) := by
        rw [stepSlot, if_neg hC]
      rw [hj, hstep]
      have htail := ih (p + 1) (by omega)
      rw [show min (p + 1 - a) (b - a - 1) = 0 by omega] at htail
      rw [htail]
      rw [if_neg (by omega)]
    · by_cases hpb : p + 1 < b
      · have hC : (p - a) + 1 < (sliceL D a b).length
            ∧ (sliceL D a b)[p - a]? = some D[p] := by
          constructor
          · rw [hslen]; omega
          · rw [sliceL_getElem? D a b (p - a), if_pos (by omega)]
            rw [show a + (p - a) = p by omega]
            rw [List.getElem?_eq_getElem hpD]
        have hj : min (p - a) (b - a - 1) = p - a := by omega
        have hstep : stepSlot (sliceL D a b) (p - a) D[p]
            = (some (p - a), p - a + 1) := by
          rw [stepSlot, if_pos hC]
        rw [hj, hstep]
        have htail := ih (p + 1) (by omega)
        rw [show min (p + 1 - a) (b - a - 1) = p - a + 1 by omega] at htail
        rw [htail]
        rw [if_pos (by omega : a ≤ p ∧ p + 1 < b)]
      · have hC : ¬((b - a - 1) + 1 < (sliceL D a b).length
            ∧ (sliceL D a b)[b - a - 1]? = some D[p]) := by
          rintro ⟨hc1, _⟩
          rw [hslen] at hc1
          omega
        have hj : min (p - a) (b - a - 1) = b - a - 1 := by omega
        have hstep : stepSlot (sliceL D a b) (b - a - 1) D[p]
            = (none, b - a - 1) := by
          rw [stepSlot, if_neg hC]
        rw [hj, hstep]
        have htail := ih (p + 1) (by omega)
        rw [show min (p + 1 - a) (b - a - 1) = b - a - 1 by omega] at htail
        rw [htail]
        rw [if_neg (by omega)]

/-! ### Structural equations for `align` and the presence characterization -/

theorem getD_map {α β : Type} (f : α → β) (l : List α) (k : Nat)
    (hk : k < l.length) (da : α) (db : β) :
    (l.map f).getD k db = f (l.getD k da) := by
  rw [List.getD_eq_getElem?_getD, List.getD_eq_getElem?_getD,
    List.getElem?_map, List.getElem?_eq_getElem hk]
  rfl

theorem map_divisions_zipWith_repartition : ∀ (dfs : List DDF)
    (divss : List (List Int)), divss.length ≤ dfs.length →
    (List.zipWith repartition dfs divss).map DDF.divisions = divss := by
  intro dfs
  induction dfs with
  | nil =>
    intro divss h
    have : divss = [] := List.eq_nil_of_length_eq_zero (by simpa using h)
    simp [this]
  | cons df dfs ih =>
    intro divss h
    cases divss with
    | nil => rfl
    | cons d ds =>
      rw [List.zipWith_cons_cons, List.map_cons, ih ds (by simpa using h)]
      rfl

theorem align_divisions (dfs : List DDF) :
    (align dfs).2.1 = unique (merge_sorted (dfs.map DDF.divisions)) := rfl

theorem align_parts (dfs : List DDF) :
    (align dfs).2.2 = alignWalk (((align dfs).1).map DDF.divisions)
      ((align dfs).2.1).dropLast (List.replicate dfs.length 0) := rfl

theorem align_dfs2 (dfs : List DDF) :
    (align dfs).1 = List.zipWith repartition dfs
      (dfs.map (fun df =>
        bound ((align dfs).2.1) df.divisions.headI (df.divisions.getLastD 0)))
    := rfl

theorem align_divisionss (dfs : List DDF) :
    ((align dfs).1).map DDF.divisions
      = dfs.map (fun df =>
          bound ((align dfs).2.1) df.divisions.headI (df.divisions.getLastD 0))
    := by
  rw [align_dfs2]
  apply map_divisions_zipWith_repartition
  simp

theorem align_divisions_sorted (dfs : List DDF)
    (hs : ∀ df ∈ dfs, df.divisions.Pairwise (· ≤ ·)) :
    ((align dfs).2.1).Pairwise (· < ·) := by
  rw [align_divisions]
  apply unique_strict_sorted
  apply merge_sorted_sorted
  intro l hl
  obtain ⟨df, hdf, rfl⟩ := List.mem_map.1 hl
  exact hs df hdf

theorem mem_align_divisions (dfs : List DDF) (x : Int) :
    x ∈ (align dfs).2.1 ↔ ∃ df ∈ dfs, x ∈ df.divisions := by
  rw [align_divisions, mem_unique, mem_merge_sorted]
  constructor
  · rintro ⟨l, hl, hx⟩
    obtain ⟨df, hdf, rfl⟩ := List.mem_map.1 hl
    exact ⟨df, hdf, hx⟩
  · rintro ⟨df, hdf, hx⟩
    exact ⟨df.divisions, List.mem_map.2 ⟨df, hdf, rfl⟩, hx⟩

theorem align_parts_length (dfs : List DDF) :
    (align dfs).2.2.length = (align dfs).2.1.length - 1 := by
  rw [align_parts, alignWalk_length, List.length_dropLast]

theorem getD_eq_getElem_of_lt {α : Type} (l : List α) (k : Nat)
    (hk : k < l.length) (d : α) : l.getD k d = l[k] := by
  rw [List.getD_eq_getElem?_getD, List.getElem?_eq_getElem hk]
  rfl

/-- Presence characterization of the alignment matrix: with all inputs
sorted, slot `k` of row `r` holds a partition reference exactly when `r` lies
in the half-open index interval cut out by input `k`'s first and last
boundary inside the common division sequence. -/
theorem align_presence (dfs : List DDF)
    (hs : ∀ df ∈ dfs, df.divisions.Pairwise (· ≤ ·))
    (k : Nat) (hk : k < dfs.length) (r : Nat) :
    (((align dfs).2.2).getD r []).getD k none
      = if bisect_left ((align dfs).2.1)
            ((dfs.getD k ⟨0, []⟩).divisions.headI) ≤ r
          ∧ r + 1 < bisect_right ((align dfs).2.1)
              ((dfs.getD k ⟨0, []⟩).divisions.getLastD 0)
          ∧ r < ((align dfs).2.1).length - 1
        then some (r - bisect_left ((align dfs).2.1)
            ((dfs.getD k ⟨0, []⟩).divisions.headI))
        else none := by
  have hdk : dfs.getD k ⟨0, []⟩ = dfs[k] := getD_eq_getElem_of_lt dfs k hk _
  have hsort : (dfs[k]).divisions.Pairwise (· ≤ ·) :=
    hs _ (List.getElem_mem hk)
  have hD : ((align dfs).2.1).Pairwise (· < ·) := align_divisions_sorted dfs hs
  set D := (align dfs).2.1 with hDdef
  set a := bisect_left D ((dfs.getD k ⟨0, []⟩).divisions.headI) with hadef
  set b := bisect_right D ((dfs.getD k ⟨0, []⟩).divisions.getLastD 0) with hbdef
  have hab : a ≤ b := by
    rw [hadef, hbdef, hdk]
    exact bisect_left_le_bisect_right D (headI_le_getLastD hsort)
  have hbD : b ≤ D.length := bisect_right_le_length D _
  -- extract column k of the alignment matrix
  have hlen1 : (((align dfs).1).map DDF.divisions).length = dfs.length := by
    rw [align_divisionss, List.length_map]
  have hcol := alignWalk_col (((align dfs).1).map DDF.divisions) k
    (by omega) D.dropLast (List.replicate dfs.length 0)
    (by rw [List.length_replicate]; omega) r
  rw [align_parts] at *
  rw [hcol]
  have hbnd : (((align dfs).1).map DDF.divisions).getD k []
      = sliceL D a b := by
    rw [align_divisionss, getD_map _ dfs k hk ⟨0, []⟩ []]
    rfl
  have hrep : (List.replicate dfs.length (0 : Nat)).getD k 0 = 0 := by
    rw [List.getD_eq_getElem?_getD, List.getElem?_replicate, if_pos hk]
    rfl
  rw [hbnd, hrep]
  have hchar := walk1_char hD hab hbD (D.length - 1) 0 (by omega)
  rw [List.drop_zero, show min (0 - a) (b - a - 1) = 0 by omega] at hchar
  rw [hchar]
  rw [List.getD_eq_getElem?_getD, List.getElem?_map]
  by_cases hr : r < D.length - 1
  · rw [List.getElem?_range' 0 1 hr]
    simp only [Option.map_some', Option.getD_some, Nat.zero_add, Nat.one_mul]
    by_cases hcond : a ≤ r ∧ r + 1 < b
    · rw [if_pos hcond, if_pos ⟨hcond.1, hcond.2, hr⟩]
    · rw [if_neg hcond, if_neg (by tauto)]
  · rw [List.getElem?_eq_none (by simp [List.length_range']; omega),
      if_neg (by tauto)]
    rfl

/-! ### Lemmas about `present`, `narrow`, `requireGo` and `taskFor` -/

theorem nat_min?_iff {l : List Nat} {a : Nat} :
    l.min? = some a ↔ a ∈ l ∧ ∀ b ∈ l, a ≤ b :=
  List.min?_eq_some_iff (fun a => le_refl a) (fun a b => min_choice a b)
    (fun _ _ _ => le_min_iff)

theorem nat_max?_iff {l : List Nat} {a : Nat} :
    l.max? = some a ↔ a ∈ l ∧ ∀ b ∈ l, b ≤ a :=
  List.max?_eq_some_iff (fun a => le_refl a) (fun a b => max_choice a b)
    (fun _ _ _ => max_le_iff)

theorem mem_present {parts : List (List (Option Nat))} {i r : Nat} :
    r ∈ present parts i
      ↔ r < parts.length ∧ ((parts.getD r []).getD i none).isSome = true := by
  rw [present, List.mem_filter, List.mem_range]

theorem narrow_inv {divisions : List Int} {parts : List (List (Option Nat))}
    {i : Nat} {dp : List Int × List (List (Option Nat))}
    (h : narrow divisions parts i = some dp) :
    ∃ mn mx, (present parts i).min? = some mn
      ∧ (present parts i).max? = some mx
      ∧ dp.1 = sliceL divisions mn (mx + 2)
      ∧ dp.2 = sliceL parts mn (mx + 1) := by
  unfold narrow at h
  cases hmn : (present parts i).min? with
  | none =>
    rw [hmn] at h
    cases hmx : (present parts i).max? <;> rw [hmx] at h <;> exact absurd h (by simp)
  | some mn =>
    cases hmx : (present parts i).max? with
    | none =>
      rw [hmn, hmx] at h
      exact absurd h (by simp)
    | some mx =>
      rw [hmn, hmx] at h
      simp only [Option.some.injEq] at h
      exact ⟨mn, mx, rfl, rfl, by rw [← h], by rw [← h]⟩

theorem requireGo_singleton (dp : List Int × List (List (Option Nat)))
    (i : Nat) : requireGo [i] dp = narrow dp.1 dp.2 i := by
  rw [requireGo]
  cases h : narrow dp.1 dp.2 i with
  | none => rfl
  | some dp2 => rfl

theorem requireGo_pair (dp : List Int × List (List (Option Nat))) (i j : Nat) :
    requireGo [i, j] dp
      = (narrow dp.1 dp.2 i).bind (fun dp2 => narrow dp2.1 dp2.2 j) := by
  rw [requireGo]
  cases h : narrow dp.1 dp.2 i with
  | none => rfl
  | some dp2 => exact requireGo_singleton dp2 j

theorem taskFor_some_some {how : String} {row : List (Option Nat)} {a b : Nat}
    (h0 : row.getD 0 none = some a) (h1 : row.getD 1 none = some b) :
    taskFor how row = JoinTask.bothT a b := by
  unfold taskFor
  rw [h0, h1]

theorem taskFor_some_none {how : String} {row : List (Option Nat)} {a : Nat}
    (h0 : row.getD 0 none = some a) (h1 : row.getD 1 none = none) :
    taskFor how row
      = if how = "left" ∨ how = "outer" then JoinTask.leftOnly a
        else JoinTask.noneT := by
  unfold taskFor
  rw [h0, h1]

theorem taskFor_none_some {how : String} {row : List (Option Nat)} {b : Nat}
    (h0 : row.getD 0 none = none) (h1 : row.getD 1 none = some b) :
    taskFor how row
      = if how = "right" ∨ how = "outer" then JoinTask.rightOnly b
        else JoinTask.noneT := by
  unfold taskFor
  rw [h0, h1]

theorem taskFor_none_none {how : String} {row : List (Option Nat)}
    (h0 : row.getD 0 none = none) (h1 : row.getD 1 none = none) :
    taskFor how row = JoinTask.noneT := by
  unfold taskFor
  rw [h0, h1]

/-! ### `bound` on sorted sequences -/

theorem drop_bisect_left {seq : List Int} (hs : seq.Pairwise (· ≤ ·))
    (x : Int) :
    seq.drop (bisect_left seq x) = seq.filter (fun y => decide (x ≤ y)) := by
  induction seq with
  | nil => rfl
  | cons y ys ih =>
    rw [List.pairwise_cons] at hs
    by_cases hy : y < x
    · have hstep : bisect_left (y :: ys) x = bisect_left ys x + 1 := by
        rw [bisect_left, bisect_left, List.countP_cons, if_pos (by simpa)]
      rw [hstep, List.drop_succ_cons, ih hs.2,
        List.filter_cons_of_neg (by simp; omega)]
    · have h0 : bisect_left (y :: ys) x = 0 := by
        rw [bisect_left, List.countP_cons, if_neg (by simp; omega)]
        rw [List.countP_eq_zero.2]
        intro z hz
        simp only [decide_eq_true_eq]
        have := hs.1 z hz
        omega
      rw [h0, List.drop_zero, List.filter_cons_of_pos (by simp; omega)]
      congr 1
      symm
      rw [List.filter_eq_self]
      intro z hz
      simp only [decide_eq_true_eq]
      have := hs.1 z hz
      omega

theorem take_bisect_right {seq : List Int} (hs : seq.Pairwise (· ≤ ·))
    (x : Int) :
    seq.take (bisect_right seq x) = seq.filter (fun y => decide (y ≤ x)) := by
  induction seq with
  | nil => rfl
  | cons y ys ih =>
    rw [List.pairwise_cons] at hs
    by_cases hy : y ≤ x
    · have hstep : bisect_right (y :: ys) x = bisect_right ys x + 1 := by
        rw [bisect_right, bisect_right, List.countP_cons, if_pos (by simpa)]
      rw [hstep, List.take_succ_cons, ih hs.2,
        List.filter_cons_of_pos (by simpa)]
    · have h0 : bisect_right (y :: ys) x = 0 := by
        rw [bisect_right, List.countP_cons,
          if_neg (by simp only [decide_eq_true_eq]; exact hy)]
        rw [List.countP_eq_zero.2]
        intro z hz
        simp only [decide_eq_true_eq]
        have := hs.1 z hz
        omega
      rw [h0, List.take_zero,
        List.filter_cons_of_neg (by simp only [decide_eq_true_eq]; exact hy)]
      symm
      rw [List.filter_eq_nil_iff]
      intro z hz
      simp only [decide_eq_true_eq]
      have := hs.1 z hz
      omega

theorem countP_split (l r : Int) (hlr : l ≤ r) : ∀ (seq : List Int),
    seq.countP (fun y => decide (y ≤ r))
      = seq.countP (fun y => decide (y ≤ r) && decide (l ≤ y))
        + seq.countP (fun y => decide (y < l)) := by
  intro seq
  induction seq with
  | nil => rfl
  | cons y ys ih =>
    rw [List.countP_cons, List.countP_cons, List.countP_cons, ih]
    split_ifs with ha hb hc <;>
      simp only [Bool.and_eq_true, decide_eq_true_eq] at * <;> omega

/-- Claim C8: on a sorted sequence and endpoints `left ≤ right`, `bound`
returns exactly the elements between `left` and `right` inclusive (which, the
sequence being sorted, form the contiguous slice from the first element ≥
`left` through the last element ≤ `right`). -/
theorem bound_sorted_eq_filter (seq : List Int) (left right : Int)
    (hs : seq.Pairwise (· ≤ ·)) (hlr : left ≤ right) :
    bound seq left right
      = seq.filter (fun x => decide (left ≤ x) && decide (x ≤ right)) := by
  rw [bound, sliceL, drop_bisect_left hs left]
  have hF : (seq.filter (fun y => decide (left ≤ y))).Pairwise (· ≤ ·) :=
    hs.filter _
  have hbr : bisect_right seq right - bisect_left seq left
      = bisect_right (seq.filter (fun y => decide (left ≤ y))) right := by
    rw [bisect_right, bisect_left]
    conv_rhs => rw [bisect_right, List.countP_filter]
    have hsplit := countP_split left right hlr seq
    have hmono : seq.countP (fun y => decide (y < left))
        ≤ seq.countP (fun y => decide (y ≤ right)) := by
      apply List.countP_mono_left
      intro z _ hz
      simp only [decide_eq_true_eq] at *
      omega
    omega
  rw [hbr, take_bisect_right hF right, List.filter_filter]
  apply List.filter_congr
  intro z _
  rw [Bool.and_comm]

/-- Claim C8 (witness): the docstring example, obtained from
`bound_sorted_eq_filter` at the concrete sorted sequence. -/
theorem bound_sorted_eq_filter_witness :
    bound [1, 3, 4, 5, 8, 10, 12] 4 10 = [4, 5, 8, 10] :=
  (bound_sorted_eq_filter [1, 3, 4, 5, 8, 10, 12] 4 10 (by decide)
    (by decide)).trans (by decide)

/-! ### Claims about `require`, the builders and `hash_join` -/

/-- Claim C7: `require` with an empty `required` list is the identity
transformation on the divisions and the alignment matrix. -/
theorem require_empty_required_identity (divisions : List Int)
    (parts : List (List (Option Nat))) :
    require divisions parts [] = some (divisions, parts) := rfl

/-- Claim C1: contrary to the spec's design intent, `require` does not
return an empty result when a required slot has no present row in the range
surviving the earlier narrowing: after aligning the disjoint datasets
`[1, 2]` and `[3, 4]`, inner pruning first narrows to the left range and then
finds no present row for slot 1, and Python's `min` of the empty presence
list raises `ValueError` (modelled as `none`), both in `require` itself and
through `join_indexed_dataframes`. -/
theorem require_fails_on_empty_intersection :
    require [1, 2, 3, 4] [[some 0, none], [none, none], [none, some 0]] [0, 1]
        = none
      ∧ join_indexed_dataframes ⟨0, [1, 2]⟩ ⟨1, [3, 4]⟩ "inner" = none := by
  decide

/-- Claim C9: `hash_join` without an explicit `npartitions` uses the maximum
of the two inputs' partition counts as the bucket count, and its output
boundary sequence is all-`None` with length `npartitions + 1`. -/
theorem hash_join_default_meta (lhs rhs : DDF) :
    (hash_join lhs rhs none).npartitions = max lhs.npartitions rhs.npartitions
      ∧ (hash_join lhs rhs none).divisions.length
          = (hash_join lhs rhs none).npartitions + 1
      ∧ ∀ x ∈ (hash_join lhs rhs none).divisions, x = none := by
  refine ⟨rfl, ?_, ?_⟩
  · rw [hash_join]
    simp
  · intro x hx
    rw [hash_join] at hx
    simp only [List.mem_replicate] at hx
    exact hx.2

/-- Claim C5 (counterexample): the unsupported join kind `"cross"` is not in
the `required` table, yet `join_indexed_dataframes` does not fail before the
alignment work: its event trace performs the alignment first and only then
raises (the `KeyError` at the `required[how]` lookup). -/
theorem join_unsupported_kind_aligns_first :
    required "cross" = none
      ∧ join_indexed_events ⟨0, [1, 2]⟩ ⟨1, [1, 2]⟩ "cross"
          = [BuildEvent.alignEv, BuildEvent.raiseEv] := by
  decide

/-- Claim C5 (amended): an unsupported join kind is rejected immediately,
before any alignment work, by `concat_indexed_dataframes` (its assert runs
first); `join_indexed_dataframes`, however, performs the alignment first and
fails only at the `required[how]` lookup, before pruning or task emission. -/
theorem unsupported_kind_rejection (how : String) (h : required how = none)
    (hc : ¬(how = "inner" ∨ how = "outer")) (lhs rhs : DDF)
    (dfs : List DDF) :
    join_indexed_events lhs rhs how
        = [BuildEvent.alignEv, BuildEvent.raiseEv]
      ∧ concat_indexed_events dfs how = [BuildEvent.raiseEv] := by
  constructor
  · rw [join_indexed_events, h]
  · rw [concat_indexed_events, if_neg hc]

/-- Claim C5 (witness): the amended rejection behavior at the concrete
unsupported kind `"cross"`. -/
theorem unsupported_kind_rejection_witness :
    join_indexed_events ⟨0, [1, 2]⟩ ⟨1, [3, 4]⟩ "cross"
        = [BuildEvent.alignEv, BuildEvent.raiseEv]
      ∧ concat_indexed_events [⟨0, [1, 2]⟩] "cross" = [BuildEvent.raiseEv] :=
  unsupported_kind_rejection "cross" (by decide) (by decide) _ _ _

/-! ### Claim C10: the common boundary sequence of `align` -/

/-- Claim C10 (counterexample): the input `[1, 1, 5]` has consecutive equal
boundaries, yet `align` repartitions it onto 5 boundaries — more than its
original 3, because the other input contributes boundaries inside its range —
refuting "strictly fewer boundaries than it originally had". -/
theorem align_repartition_not_fewer :
    ((align [⟨0, [1, 1, 5]⟩, ⟨1, [2, 3, 4, 5]⟩]).1.getD 0 ⟨0, []⟩).divisions
        = [1, 2, 3, 4, 5]
      ∧ ¬(((align [⟨0, [1, 1, 5]⟩, ⟨1, [2, 3, 4, 5]⟩]).1.getD 0
            ⟨0, []⟩).divisions.length
          < ([1, 1, 5] : List Int).length) := by
  decide

/-- Claim C10 (amended): for sorted inputs the common boundary sequence of
`align` is strictly increasing — equal boundary values, including consecutive
equal boundaries within one input, are collapsed to one occurrence (it holds
exactly the distinct boundary values of all inputs) — the alignment matrix
has exactly one row fewer than the common boundary count, and every
repartition target is itself strictly increasing (duplicates collapsed),
though it may hold more boundaries than the input originally had when other
inputs contribute values inside its range. -/
theorem align_divisions_distinct_sorted (dfs : List DDF)
    (hs : ∀ df ∈ dfs, df.divisions.Pairwise (· ≤ ·)) :
    ((align dfs).2.1).Pairwise (· < ·)
      ∧ (align dfs).2.2.length = (align dfs).2.1.length - 1
      ∧ (∀ x, x ∈ (align dfs).2.1 ↔ ∃ df ∈ dfs, x ∈ df.divisions)
      ∧ ∀ df2 ∈ (align dfs).1, df2.divisions.Pairwise (· < ·) := by
  refine ⟨align_divisions_sorted dfs hs, align_parts_length dfs,
    fun x => mem_align_divisions dfs x, ?_⟩
  intro df2 hdf2
  obtain ⟨i, hi, hget⟩ := List.getElem_of_mem hdf2
  have hmap : ((align dfs).1.map DDF.divisions)[i]? = some df2.divisions := by
    rw [List.getElem?_map, List.getElem?_eq_getElem hi, hget]
    rfl
  rw [align_divisionss, List.getElem?_map] at hmap
  have hidfs : i < dfs.length := by
    have hlen : ((align dfs).1).length = dfs.length := by
      have := congrArg List.length (align_divisionss dfs)
      simpa using this
    omega
  rw [List.getElem?_eq_getElem hidfs] at hmap
  simp only [Option.map_some', Option.some.injEq] at hmap
  rw [← hmap, bound]
  exact List.Pairwise.sublist (sliceL_sublist _ _ _)
    (align_divisions_sorted dfs hs)

/-- Claim C10 (witness): the amended statement applied to the concrete
duplicate-boundary inputs of the counterexample. -/
theorem align_divisions_distinct_sorted_witness :
    ((align [⟨0, [1, 1, 5]⟩, ⟨1, [2, 3, 4, 5]⟩]).2.1).Pairwise (· < ·)
      ∧ (align [⟨0, [1, 1, 5]⟩, ⟨1, [2, 3, 4, 5]⟩]).2.2.length
          = (align [⟨0, [1, 1, 5]⟩, ⟨1, [2, 3, 4, 5]⟩]).2.1.length - 1
      ∧ (∀ x, x ∈ (align [⟨0, [1, 1, 5]⟩, ⟨1, [2, 3, 4, 5]⟩]).2.1
          ↔ ∃ df ∈ [DDF.mk 0 [1, 1, 5], DDF.mk 1 [2, 3, 4, 5]],
              x ∈ df.divisions)
      ∧ ∀ df2 ∈ (align [⟨0, [1, 1, 5]⟩, ⟨1, [2, 3, 4, 5]⟩]).1,
          df2.divisions.Pairwise (· < ·) :=
  align_divisions_distinct_sorted [⟨0, [1, 1, 5]⟩, ⟨1, [2, 3, 4, 5]⟩]
    (by decide)

/-! ### Narrowing on interval-shaped presence; claim C3 -/

theorem getElem?_some_lt {α : Type} {l : List α} {r : Nat} {x : α}
    (h : l[r]? = some x) : r < l.length := by
  by_contra hc
  rw [List.getElem?_eq_none (by omega)] at h
  exact absurd h (by simp)

/-- Presence of the two slots in the alignment matrix of a two-dataset
`align`, as an index-interval criterion (specialization of
`align_presence`). -/
theorem align2_presence_iff (lhs rhs : DDF)
    (hl : lhs.divisions.Pairwise (· ≤ ·))
    (hr : rhs.divisions.Pairwise (· ≤ ·)) :
    (∀ r < (align [lhs, rhs]).2.2.length,
      ((((align [lhs, rhs]).2.2.getD r []).getD 0 none).isSome = true
        ↔ bisect_left ((align [lhs, rhs]).2.1) lhs.divisions.headI ≤ r
          ∧ r + 1 < bisect_right ((align [lhs, rhs]).2.1)
              (lhs.divisions.getLastD 0)))
    ∧ (∀ r < (align [lhs, rhs]).2.2.length,
      ((((align [lhs, rhs]).2.2.getD r []).getD 1 none).isSome = true
        ↔ bisect_left ((align [lhs, rhs]).2.1) rhs.divisions.headI ≤ r
          ∧ r + 1 < bisect_right ((align [lhs, rhs]).2.1)
              (rhs.divisions.getLastD 0))) := by
  have hs : ∀ df ∈ [lhs, rhs], df.divisions.Pairwise (· ≤ ·) := by
    intro df hdf
    simp only [List.mem_cons, List.not_mem_nil, or_false] at hdf
    rcases hdf with rfl | rfl
    · exact hl
    · exact hr
  constructor
  · intro r hr0
    have hP := align_presence [lhs, rhs] hs 0 (by norm_num) r
    rw [show ([lhs, rhs].getD 0 ⟨0, []⟩) = lhs from rfl] at hP
    rw [hP]
    rw [align_parts_length] at hr0
    split_ifs with hc
    · constructor
      · intro _
        exact ⟨hc.1, hc.2.1⟩
      · intro _
        rfl
    · constructor
      · intro hfalse
        simp at hfalse
      · intro hAB
        exact absurd ⟨hAB.1, hAB.2, hr0⟩ hc
  · intro r hr1
    have hP := align_presence [lhs, rhs] hs 1 (by norm_num) r
    rw [show ([lhs, rhs].getD 1 ⟨0, []⟩) = rhs from rfl] at hP
    rw [hP]
    rw [align_parts_length] at hr1
    split_ifs with hc
    · constructor
      · intro _
        exact ⟨hc.1, hc.2.1⟩
      · intro _
        rfl
    · constructor
      · intro hfalse
        simp at hfalse
      · intro hAB
        exact absurd ⟨hAB.1, hAB.2, hr1⟩ hc

/-- One `require` narrowing step on a slot whose presence is an index
interval: the surviving rows all have the slot present, and the outputs are
contiguous slices of the inputs over a sub-interval of the presence range. -/
theorem narrow_interval {D0 : List Int} {M : List (List (Option Nat))}
    {i ai bi : Nat}
    (hP : ∀ r < M.length,
      (((M.getD r []).getD i none).isSome = true ↔ ai ≤ r ∧ r + 1 < bi))
    {dp : List Int × List (List (Option Nat))}
    (h : narrow D0 M i = some dp) :
    (∀ row ∈ dp.2, (row.getD i none).isSome = true)
      ∧ ∃ mn mx, ai ≤ mn ∧ mn ≤ mx ∧ mx + 1 < bi ∧ mx < M.length
        ∧ dp.1 = sliceL D0 mn (mx + 2) ∧ dp.2 = sliceL M mn (mx + 1) := by
  obtain ⟨mn, mx, hmn, hmx, hd, hp⟩ := narrow_inv h
  have hmnP := nat_min?_iff.1 hmn
  have hmxP := nat_max?_iff.1 hmx
  have hmnmem := mem_present.1 hmnP.1
  have hmxmem := mem_present.1 hmxP.1
  have h1 := (hP mn hmnmem.1).1 hmnmem.2
  have h2 := (hP mx hmxmem.1).1 hmxmem.2
  have hmnmx : mn ≤ mx := hmnP.2 mx hmxP.1
  refine ⟨?_, mn, mx, h1.1, hmnmx, h2.2, hmxmem.1, hd, hp⟩
  intro row hrow
  rw [hp] at hrow
  obtain ⟨r, hr1, hr2, hget⟩ := mem_sliceL hrow
  have hrlen : r < M.length := getElem?_some_lt hget
  have hrowD : M.getD r [] = row := by
    rw [List.getD_eq_getElem?_getD, hget]
    rfl
  rw [← hrowD]
  exact (hP r hrlen).2 ⟨by omega, by omega⟩

/-- Presence of another slot inside the slice produced by a narrowing step
keeps its interval shape, shifted by the slice offset. -/
theorem slice_presence_iff {M : List (List (Option Nat))} {j aj bj : Nat}
    (hP : ∀ r < M.length,
      (((M.getD r []).getD j none).isSome = true ↔ aj ≤ r ∧ r + 1 < bj))
    (mn mx : Nat) :
    ∀ r' < (sliceL M mn (mx + 1)).length,
      ((((sliceL M mn (mx + 1)).getD r' []).getD j none).isSome = true
        ↔ aj - mn ≤ r' ∧ r' + 1 < bj - mn) := by
  intro r' hr'
  rw [sliceL_length] at hr'
  have hrlt : r' < mx + 1 - mn := by omega
  have hgd : (sliceL M mn (mx + 1)).getD r' [] = M.getD (mn + r') [] := by
    rw [List.getD_eq_getElem?_getD, sliceL_getElem? M mn (mx + 1) r',
      if_pos hrlt, List.getD_eq_getElem?_getD]
  rw [hgd]
  have hlt : mn + r' < M.length := by omega
  rw [hP (mn + r') hlt]
  constructor
  · intro hx
    omega
  · intro hx
    omega

/-- Claim C3 (counterexample): for an outer join of two datasets with
strictly separated ranges, the gap interval between the ranges survives
pruning (outer prunes nothing) with both slots absent, and the final
fallthrough branch records a `None` task descriptor. -/
theorem join_outer_disjoint_emits_none_task :
    join_indexed_dataframes ⟨0, [1, 2, 3]⟩ ⟨1, [5, 6, 7]⟩ "outer"
        = some ([1, 2, 3, 5, 6, 7],
            [JoinTask.leftOnly 0, JoinTask.leftOnly 1, JoinTask.noneT,
             JoinTask.rightOnly 0, JoinTask.rightOnly 1])
      ∧ JoinTask.noneT ∈ [JoinTask.leftOnly 0, JoinTask.leftOnly 1,
          JoinTask.noneT, JoinTask.rightOnly 0, JoinTask.rightOnly 1] := by
  decide

/-- Unfolding equation for `join_indexed_dataframes` once the required-slot
lookup succeeds. -/
theorem join_indexed_eq (lhs rhs : DDF) (how : String) (req : List Nat)
    (hreq : required how = some req) :
    join_indexed_dataframes lhs rhs how
      = match require ((align [lhs, rhs]).2.1) ((align [lhs, rhs]).2.2)
          req with
        | none => none
        | some (d2, p2) => some (d2, p2.map (taskFor how)) := by
  unfold join_indexed_dataframes
  rw [hreq]

/-- Claim C3 (amended): for the join kinds with a nonempty required-slot set
(`left`, `right`, `inner`) and any two sorted indexed inputs on which the
pruning succeeds, every surviving row satisfies one of the three emit
conditions, so the `None` fallthrough descriptor never appears; for `outer`
the fallthrough is reachable (see the counterexample). -/
theorem join_pruned_rows_emit_tasks (lhs rhs : DDF)
    (hl : lhs.divisions.Pairwise (· ≤ ·))
    (hr : rhs.divisions.Pairwise (· ≤ ·)) (how : String)
    (hhow : how = "left" ∨ how = "right" ∨ how = "inner")
    (d2 : List Int) (tasks : List JoinTask)
    (hj : join_indexed_dataframes lhs rhs how = some (d2, tasks)) :
    JoinTask.noneT ∉ tasks := by
  obtain ⟨hP0, hP1⟩ := align2_presence_iff lhs rhs hl hr
  rcases hhow with rfl | rfl | rfl
  · -- how = "left"
    rw [join_indexed_eq lhs rhs "left" [0] rfl] at hj
    rw [show require ((align [lhs, rhs]).2.1) ((align [lhs, rhs]).2.2) [0]
        = requireGo [0] ((align [lhs, rhs]).2.1, (align [lhs, rhs]).2.2)
        from rfl, requireGo_singleton] at hj
    rcases hn : narrow ((align [lhs, rhs]).2.1) ((align [lhs, rhs]).2.2) 0
      with _ | ⟨d2x, p2⟩
    · rw [hn] at hj
      exact absurd hj (by simp)
    · rw [hn] at hj
      simp only [Option.some.injEq, Prod.mk.injEq] at hj
      obtain ⟨hpres, _⟩ := narrow_interval hP0 hn
      rw [← hj.2]
      intro hmem
      obtain ⟨row, hrow, htf⟩ := List.mem_map.1 hmem
      obtain ⟨av, hav⟩ := Option.isSome_iff_exists.1 (hpres row hrow)
      cases h1 : row.getD 1 none with
      | some bv =>
        rw [taskFor_some_some hav h1] at htf
        exact absurd htf (by simp)
      | none =>
        rw [taskFor_some_none hav h1, if_pos (Or.inl rfl)] at htf
        exact absurd htf (by simp)
  · -- how = "right"
    rw [join_indexed_eq lhs rhs "right" [1] rfl] at hj
    rw [show require ((align [lhs, rhs]).2.1) ((align [lhs, rhs]).2.2) [1]
        = requireGo [1] ((align [lhs, rhs]).2.1, (align [lhs, rhs]).2.2)
        from rfl, requireGo_singleton] at hj
    rcases hn : narrow ((align [lhs, rhs]).2.1) ((align [lhs, rhs]).2.2) 1
      with _ | ⟨d2x, p2⟩
    · rw [hn] at hj
      exact absurd hj (by simp)
    · rw [hn] at hj
      simp only [Option.some.injEq, Prod.mk.injEq] at hj
      obtain ⟨hpres, _⟩ := narrow_interval hP1 hn
      rw [← hj.2]
      intro hmem
      obtain ⟨row, hrow, htf⟩ := List.mem_map.1 hmem
      obtain ⟨bv, hbv⟩ := Option.isSome_iff_exists.1 (hpres row hrow)
      cases h0 : row.getD 0 none with
      | some av =>
        rw [taskFor_some_some h0 hbv] at htf
        exact absurd htf (by simp)
      | none =>
        rw [taskFor_none_some h0 hbv, if_pos (Or.inl rfl)] at htf
        exact absurd htf (by simp)
  · -- how = "inner"
    rw [join_indexed_eq lhs rhs "inner" [0, 1] rfl] at hj
    rw [show require ((align [lhs, rhs]).2.1) ((align [lhs, rhs]).2.2) [0, 1]
        = requireGo [0, 1] ((align [lhs, rhs]).2.1, (align [lhs, rhs]).2.2)
        from rfl, requireGo_pair] at hj
    rcases hn : narrow ((align [lhs, rhs]).2.1) ((align [lhs, rhs]).2.2) 0
      with _ | ⟨d2A, p2A⟩
    · rw [hn] at hj
      exact absurd hj (by simp)
    · rw [hn, Option.some_bind] at hj
      obtain ⟨hpresA, mn, mx, _, _, _, _, _, hsliceA⟩ :=
        narrow_interval hP0 hn
      rcases hn2 : narrow (d2A, p2A).1 (d2A, p2A).2 1 with _ | ⟨d2B, p2B⟩
      · rw [hn2] at hj
        exact absurd hj (by simp)
      · rw [hn2] at hj
        simp only [Option.some.injEq, Prod.mk.injEq] at hj
        have hP1' : ∀ r' < (d2A, p2A).2.length,
            ((((d2A, p2A).2.getD r' []).getD 1 none).isSome = true
              ↔ bisect_left ((align [lhs, rhs]).2.1) rhs.divisions.headI - mn
                  ≤ r'
                ∧ r' + 1 < bisect_right ((align [lhs, rhs]).2.1)
                    (rhs.divisions.getLastD 0) - mn) := by
          rw [show (d2A, p2A).2 = p2A from rfl]
          rw [show p2A = ((d2A, p2A) :
              List Int × List (List (Option Nat))).2 from rfl, hsliceA]
          exact slice_presence_iff hP1 mn mx
        obtain ⟨hpresB, mn2, mx2, _, _, _, _, _, hsliceB⟩ :=
          narrow_interval hP1' hn2
        rw [← hj.2]
        intro hmem
        obtain ⟨row, hrow, htf⟩ := List.mem_map.1 hmem
        have hrowA : row ∈ p2A := by
          rw [show ((d2B, p2B) :
              List Int × List (List (Option Nat))).2 = p2B from rfl]
            at hsliceB
          rw [hsliceB] at hrow
          exact (sliceL_sublist _ _ _).subset hrow
        obtain ⟨av, hav⟩ := Option.isSome_iff_exists.1 (hpresA row hrowA)
        obtain ⟨bv, hbv⟩ := Option.isSome_iff_exists.1 (hpresB row hrow)
        rw [taskFor_some_some hav hbv] at htf
        exact absurd htf (by simp)

/-- Claim C3 (witness): the amended theorem at a concrete inner join whose
pruning succeeds. -/
theorem join_pruned_rows_emit_tasks_witness :
    JoinTask.noneT ∉ [JoinTask.bothT 1 0] :=
  join_pruned_rows_emit_tasks ⟨0, [1, 3]⟩ ⟨1, [2, 4]⟩ (by decide) (by decide)
    "inner" (Or.inr (Or.inr rfl)) [2, 3] [JoinTask.bothT 1 0] (by decide)

/-! ### Claim C6: inner pruning on contiguous presence -/

theorem mem_range'_iff {s n m : Nat} :
    m ∈ List.range' s n ↔ s ≤ m ∧ m < s + n := by
  rw [List.mem_range']
  constructor
  · rintro ⟨i, hi, rfl⟩
    omega
  · intro h
    exact ⟨m - s, by omega, by omega⟩

theorem range'_min? {s n : Nat} (h : 0 < n) :
    (List.range' s n).min? = some s := by
  apply nat_min?_iff.2
  constructor
  · exact mem_range'_iff.2 ⟨le_refl s, by omega⟩
  · intro b hb
    exact (mem_range'_iff.1 hb).1

theorem range'_max? {s n : Nat} (h : 0 < n) :
    (List.range' s n).max? = some (s + n - 1) := by
  apply nat_max?_iff.2
  constructor
  · exact mem_range'_iff.2 ⟨by omega, by omega⟩
  · intro b hb
    have := mem_range'_iff.1 hb
    omega

/-- Claim C6 (counterexample): `require` with `required = [0, 1]` on a matrix
whose slot-0 presence has an interior gap returns a surviving row whose slot
0 is absent — the sequential narrowing only trims the ends. -/
theorem require_inner_gap_keeps_absent_row :
    require [1, 2, 3, 4]
        [[some 0, some 0], [none, some 1], [some 1, some 2]] [0, 1]
        = some ([1, 2, 3, 4],
            [[some 0, some 0], [none, some 1], [some 1, some 2]])
      ∧ ¬(∀ row ∈ [[some 0, some 0], [none, (some 1 : Option Nat)],
            [some 1, some 2]], (row.getD 0 none).isSome = true) := by
  decide

/-- Claim C6 (amended): when each required slot's present rows form a
contiguous index range (`range'`), as alignment matrices provide, and the
boundary count is the row count plus one, a successful
`require(divisions, parts, required=[0,1])` yields rows with both slots
present, one more boundary than rows, and the surviving row-index range is
exactly the intersection of the two per-slot presence ranges
`[min_present, max_present]` despite the sequential narrowing. -/
theorem require_inner_contiguous (divisions : List Int)
    (parts : List (List (Option Nat))) (a0 n0 a1 n1 : Nat)
    (h0 : present parts 0 = List.range' a0 n0)
    (h1 : present parts 1 = List.range' a1 n1)
    (hlen : divisions.length = parts.length + 1)
    (d2 : List Int) (p2 : List (List (Option Nat)))
    (hreq : require divisions parts [0, 1] = some (d2, p2)) :
    (∀ row ∈ p2, (row.getD 0 none).isSome = true
        ∧ (row.getD 1 none).isSome = true)
      ∧ d2.length = p2.length + 1
      ∧ p2 = sliceL parts (max a0 a1)
          (min (a0 + n0 - 1) (a1 + n1 - 1) + 1)
      ∧ d2 = sliceL divisions (max a0 a1)
          (min (a0 + n0 - 1) (a1 + n1 - 1) + 2) := by
  rw [show require divisions parts [0, 1]
      = requireGo [0, 1] (divisions, parts) from rfl, requireGo_pair] at hreq
  rcases hnA : narrow (divisions, parts).1 (divisions, parts).2 0
    with _ | ⟨dA, pA⟩
  · rw [hnA] at hreq
    exact absurd hreq (by simp)
  · rw [hnA, Option.some_bind] at hreq
    obtain ⟨mn, mx, hmn0, hmx0, hdA0, hpA0⟩ := narrow_inv hnA
    have hmn : (List.range' a0 n0).min? = some mn := by
      have h' : (present parts 0).min? = some mn := hmn0
      rw [h0] at h'
      exact h'
    have hmx : (List.range' a0 n0).max? = some mx := by
      have h' : (present parts 0).max? = some mx := hmx0
      rw [h0] at h'
      exact h'
    have hdA : dA = sliceL divisions mn (mx + 2) := hdA0
    have hpA : pA = sliceL parts mn (mx + 1) := hpA0
    have hn0 : 0 < n0 := by
      by_contra hc
      have hz : n0 = 0 := by omega
      rw [hz] at hmn
      exact absurd hmn (by simp)
    rw [range'_min? hn0] at hmn
    rw [range'_max? hn0] at hmx
    have hmn_eq : mn = a0 := (Option.some.inj hmn).symm
    have hmx_eq : mx = a0 + n0 - 1 := (Option.some.inj hmx).symm
    -- bounds from slot-0 presence inside the matrix
    have hmxlen : a0 + n0 - 1 < parts.length := by
      have hm : a0 + n0 - 1 ∈ present parts 0 := by
        rw [h0]
        exact mem_range'_iff.2 ⟨by omega, by omega⟩
      exact (mem_present.1 hm).1
    have hplen : pA.length = n0 := by
      rw [hpA, sliceL_length]
      omega
    -- presence of slot 1 inside the narrowed matrix
    have hpres1 : present pA 1
        = List.range' (a1 - a0) (min (a1 + n1 - a0) n0 - (a1 - a0)) := by
      rw [present, hplen]
      rw [List.filter_congr (q := fun q =>
        decide (a1 - a0 ≤ q) && decide (q < a1 + n1 - a0)) ?_]
      · exact filter_range_interval (a1 - a0) (a1 + n1 - a0) n0
      · intro q hq
        rw [List.mem_range] at hq
        have hgd : pA.getD q [] = parts.getD (a0 + q) [] := by
          rw [hpA, hmn_eq, hmx_eq, List.getD_eq_getElem?_getD, sliceL_getElem?,
            if_pos (by omega), List.getD_eq_getElem?_getD]
        have hiff : ((pA.getD q []).getD 1 none).isSome = true
            ↔ (a1 - a0 ≤ q ∧ q < a1 + n1 - a0) := by
          rw [hgd]
          have hmem : (a0 + q) ∈ present parts 1
              ↔ (a0 + q) < parts.length
                ∧ ((parts.getD (a0 + q) []).getD 1 none).isSome = true :=
            mem_present
          rw [h1, mem_range'_iff] at hmem
          constructor
          · intro hx
            have := hmem.2 ⟨by omega, hx⟩
            omega
          · intro hx
            exact (hmem.1 ⟨by omega, by omega⟩).2
        rw [Bool.eq_iff_iff, hiff]
        simp only [Bool.and_eq_true, decide_eq_true_eq]
    obtain ⟨mn2, mx2, hmn20, hmx20, hd20, hp20⟩ := narrow_inv hreq
    have hmn2 : (List.range' (a1 - a0)
        (min (a1 + n1 - a0) n0 - (a1 - a0))).min? = some mn2 := by
      have h' : (present pA 1).min? = some mn2 := hmn20
      rw [hpres1] at h'
      exact h'
    have hmx2 : (List.range' (a1 - a0)
        (min (a1 + n1 - a0) n0 - (a1 - a0))).max? = some mx2 := by
      have h' : (present pA 1).max? = some mx2 := hmx20
      rw [hpres1] at h'
      exact h'
    have hd2x : d2 = sliceL dA mn2 (mx2 + 2) := hd20
    have hp2x : p2 = sliceL pA mn2 (mx2 + 1) := hp20
    have hm2 : 0 < min (a1 + n1 - a0) n0 - (a1 - a0) := by
      by_contra hc
      have hz : min (a1 + n1 - a0) n0 - (a1 - a0) = 0 := by omega
      rw [hz] at hmn2
      exact absurd hmn2 (by simp)
    rw [range'_min? hm2] at hmn2
    rw [range'_max? hm2] at hmx2
    have hmn2_eq : mn2 = a1 - a0 := (Option.some.inj hmn2).symm
    have hmx2_eq : mx2
        = (a1 - a0) + (min (a1 + n1 - a0) n0 - (a1 - a0)) - 1 :=
      (Option.some.inj hmx2).symm
    have hn1 : 0 < n1 := by omega
    -- the two slice compositions
    have hp2' : p2 = sliceL parts (a0 + mn2) (min (a0 + n0) (a0 + (mx2 + 1)))
        := by
      rw [hp2x, hpA, hmn_eq, hmx_eq]
      rw [show a0 + n0 - 1 + 1 = a0 + n0 by omega]
      rw [sliceL_sliceL]
    have hd2' : d2 = sliceL divisions (a0 + mn2)
        (min (a0 + n0 + 1) (a0 + (mx2 + 2))) := by
      rw [hd2x, hdA, hmn_eq, hmx_eq]
      rw [show a0 + n0 - 1 + 2 = a0 + n0 + 1 by omega]
      rw [sliceL_sliceL]
    have hslice_p : p2 = sliceL parts (max a0 a1)
        (min (a0 + n0 - 1) (a1 + n1 - 1) + 1) := by
      rw [hp2']
      congr 1
      · omega
      · omega
    have hslice_d : d2 = sliceL divisions (max a0 a1)
        (min (a0 + n0 - 1) (a1 + n1 - 1) + 2) := by
      rw [hd2']
      congr 1
      · omega
      · omega
    refine ⟨?_, ?_, hslice_p, hslice_d⟩
    · intro row hrow
      rw [hslice_p] at hrow
      obtain ⟨r, hr1, hr2, hget⟩ := mem_sliceL hrow
      have hrlen : r < parts.length := getElem?_some_lt hget
      have hrowD : parts.getD r [] = row := by
        rw [List.getD_eq_getElem?_getD, hget]
        rfl
      constructor
      · rw [← hrowD]
        have : r ∈ present parts 0 := by
          rw [h0]
          exact mem_range'_iff.2 ⟨by omega, by omega⟩
        exact (mem_present.1 this).2
      · rw [← hrowD]
        have : r ∈ present parts 1 := by
          rw [h1]
          exact mem_range'_iff.2 ⟨by omega, by omega⟩
        exact (mem_present.1 this).2
    · rw [hslice_p, hslice_d, sliceL_length, sliceL_length, hlen]
      omega

/-- Claim C6 (witness): the amended statement at the docstring scenario
(boundaries `[1,3,5,7,9]`, slot-0 presence rows 0–2, slot-1 presence rows
1–3). -/
theorem require_inner_contiguous_witness :
    (∀ row ∈ [[some 1, some 0], [some 2, (some 1 : Option Nat)]],
        (row.getD 0 none).isSome = true ∧ (row.getD 1 none).isSome = true)
      ∧ ([3, 5, 7] : List Int).length
          = [[some 1, some 0], [some 2, (some 1 : Option Nat)]].length + 1
      ∧ [[some 1, some 0], [some 2, (some 1 : Option Nat)]]
          = sliceL [[some 0, none], [some 1, some 0], [some 2, some 1],
              [none, some 2]] (max 0 1) (min (0 + 3 - 1) (1 + 3 - 1) + 1)
      ∧ ([3, 5, 7] : List Int)
          = sliceL [1, 3, 5, 7, 9] (max 0 1)
              (min (0 + 3 - 1) (1 + 3 - 1) + 2) :=
  require_inner_contiguous [1, 3, 5, 7, 9]
    [[some 0, none], [some 1, some 0], [some 2, some 1], [none, some 2]]
    0 3 1 3 (by decide) (by decide) (by decide)
    [3, 5, 7] [[some 1, some 0], [some 2, some 1]] (by decide)

/-! ### Claim C4: re-deriving boundaries from the alignment matrix -/

theorem sliceL_concat (xs : List Int) (a e : Nat) (he : e < xs.length)
    (hae : a ≤ e) :
    sliceL xs a e ++ [xs.getD e 0] = sliceL xs a (e + 1) := by
  unfold sliceL
  rw [show e + 1 - a = (e - a) + 1 by omega, List.take_succ]
  congr 1
  rw [List.getElem?_drop, show a + (e - a) = e by omega,
    List.getElem?_eq_getElem he, getD_eq_getElem_of_lt xs e he 0]
  rfl

/-- For a sorted input spanning a nontrivial range, the boundaries re-derived
from the alignment matrix (present rows' boundaries plus the closing one)
equal that input's post-repartition divisions, i.e. the bounded slice of the
common boundary sequence. -/
theorem deriveBoundaries_eq (dfs : List DDF)
    (hs : ∀ df ∈ dfs, df.divisions.Pairwise (· ≤ ·))
    (k : Nat) (hk : k < dfs.length)
    (hspan : (dfs.getD k ⟨0, []⟩).divisions.headI
        < (dfs.getD k ⟨0, []⟩).divisions.getLastD 0) :
    deriveBoundaries ((align dfs).2.1) ((align dfs).2.2) k
      = ((align dfs).1.getD k ⟨0, []⟩).divisions := by
  have hD : ((align dfs).2.1).Pairwise (· < ·) := align_divisions_sorted dfs hs
  have hML : (align dfs).2.2.length = ((align dfs).2.1).length - 1 :=
    align_parts_length dfs
  have hdkne : (dfs.getD k ⟨0, []⟩).divisions ≠ [] := by
    intro hc
    rw [hc] at hspan
    simp at hspan
  have hdfk : dfs.getD k ⟨0, []⟩ ∈ dfs := by
    rw [getD_eq_getElem_of_lt dfs k hk]
    exact List.getElem_mem hk
  have hmemh : (dfs.getD k ⟨0, []⟩).divisions.headI ∈ (align dfs).2.1 :=
    (mem_align_divisions dfs _).2 ⟨_, hdfk, headI_mem hdkne⟩
  have hmeml : (dfs.getD k ⟨0, []⟩).divisions.getLastD 0 ∈ (align dfs).2.1 :=
    (mem_align_divisions dfs _).2 ⟨_, hdfk, getLastD_mem hdkne⟩
  obtain ⟨i1, hi1, hD1⟩ := List.getElem_of_mem hmemh
  obtain ⟨i2, hi2, hD2⟩ := List.getElem_of_mem hmeml
  have ha : bisect_left ((align dfs).2.1)
      ((dfs.getD k ⟨0, []⟩).divisions.headI) = i1 := by
    rw [← hD1]
    exact bisect_left_getElem hD hi1
  have hb : bisect_right ((align dfs).2.1)
      ((dfs.getD k ⟨0, []⟩).divisions.getLastD 0) = i2 + 1 := by
    rw [← hD2]
    exact bisect_right_getElem hD hi2
  have hi12 : i1 < i2 := by
    by_contra hc
    have hle : i2 ≤ i1 := by omega
    rcases Nat.eq_or_lt_of_le hle with heq | hlt
    · subst heq
      rw [hD1] at hD2
      omega
    · have hlt2 := List.pairwise_iff_getElem.1 hD i2 i1 hi2 hi1 hlt
      rw [hD1, hD2] at hlt2
      omega
  have hrows : (List.range (align dfs).2.2.length).filter
      (fun r => (((align dfs).2.2.getD r []).getD k none).isSome)
      = List.range' i1 (i2 - i1) := by
    rw [List.filter_congr (q := fun r =>
      decide (i1 ≤ r) && decide (r < i2)) ?_]
    · rw [filter_range_interval i1 i2 ((align dfs).2.2.length)]
      congr 1
      omega
    · intro r hr
      rw [List.mem_range] at hr
      have hP := align_presence dfs hs k hk r
      rw [Bool.eq_iff_iff]
      constructor
      · intro hx
        rw [hP] at hx
        split_ifs at hx with hc
        · simp only [Bool.and_eq_true, decide_eq_true_eq]
          omega
        · simp at hx
      · intro hx
        simp only [Bool.and_eq_true, decide_eq_true_eq] at hx
        rw [hP, if_pos (by omega)]
        rfl
  rw [deriveBoundaries]
  rw [hrows]
  have hlen12 : 0 < i2 - i1 := by omega
  rw [getLast?_range' (i2 - i1) i1 hlen12]
  rw [map_getD_range' ((align dfs).2.1) (i2 - i1) i1 (by omega)]
  rw [show i1 + (i2 - i1) = i2 by omega]
  show sliceL ((align dfs).2.1) i1 i2
      ++ [((align dfs).2.1).getD (i2 - 1 + 1) 0]
    = ((align dfs).1.getD k ⟨0, []⟩).divisions
  rw [show i2 - 1 + 1 = i2 by omega]
  rw [sliceL_concat ((align dfs).2.1) i1 i2 hi2 (by omega)]
  have hlen1 : (align dfs).1.length = dfs.length := by
    have hc := congrArg List.length (align_divisionss dfs)
    simpa using hc
  have e1 : ((align dfs).1.map DDF.divisions).getD k []
      = ((align dfs).1.getD k ⟨0, []⟩).divisions :=
    getD_map DDF.divisions _ k (by omega) ⟨0, []⟩ []
  have e2 : ((align dfs).1.map DDF.divisions).getD k []
      = bound ((align dfs).2.1) ((dfs.getD k ⟨0, []⟩).divisions.headI)
          ((dfs.getD k ⟨0, []⟩).divisions.getLastD 0) := by
    rw [align_divisionss, getD_map _ dfs k hk ⟨0, []⟩ []]
  rw [← e1, e2, bound, ha, hb]

/-- Claim C4 (counterexample): aligning `[1, 5]` with `[2, 3]` and
re-deriving input 0's boundaries from the matrix gives `[1, 2, 3, 5]` — the
repartitioned divisions — not the original BoundarySet `[1, 5]`. -/
theorem align_derive_not_original :
    deriveBoundaries ((align [⟨0, [1, 5]⟩, ⟨1, [2, 3]⟩]).2.1)
        ((align [⟨0, [1, 5]⟩, ⟨1, [2, 3]⟩]).2.2) 0 = [1, 2, 3, 5]
      ∧ ([1, 2, 3, 5] : List Int) ≠ (DDF.mk 0 [1, 5]).divisions := by
  decide

/-- Claim C4 (amended): for two sorted inputs each spanning a nontrivial
range, re-deriving each input's boundaries from the alignment matrix (the
common boundary of every present row plus the closing boundary) reproduces
that input's *post-repartition* BoundarySet — the bounded slice of the
common boundary sequence — exactly (not, in general, the original one). -/
theorem align_derive_boundaries (lhs rhs : DDF)
    (hl : lhs.divisions.Pairwise (· ≤ ·))
    (hr : rhs.divisions.Pairwise (· ≤ ·))
    (hl2 : lhs.divisions.headI < lhs.divisions.getLastD 0)
    (hr2 : rhs.divisions.headI < rhs.divisions.getLastD 0) :
    deriveBoundaries ((align [lhs, rhs]).2.1) ((align [lhs, rhs]).2.2) 0
        = ((align [lhs, rhs]).1.getD 0 ⟨0, []⟩).divisions
      ∧ deriveBoundaries ((align [lhs, rhs]).2.1) ((align [lhs, rhs]).2.2) 1
        = ((align [lhs, rhs]).1.getD 1 ⟨0, []⟩).divisions := by
  have hs : ∀ df ∈ [lhs, rhs], df.divisions.Pairwise (· ≤ ·) := by
    intro df hdf
    simp only [List.mem_cons, List.not_mem_nil, or_false] at hdf
    rcases hdf with rfl | rfl
    · exact hl
    · exact hr
  constructor
  · exact deriveBoundaries_eq [lhs, rhs] hs 0 (by norm_num) hl2
  · exact deriveBoundaries_eq [lhs, rhs] hs 1 (by norm_num) hr2

/-- Claim C4 (witness): the amended statement at the concrete inputs of the
counterexample. -/
theorem align_derive_boundaries_witness :
    deriveBoundaries ((align [⟨0, [1, 5]⟩, ⟨1, [2, 3]⟩]).2.1)
        ((align [⟨0, [1, 5]⟩, ⟨1, [2, 3]⟩]).2.2) 0
        = ((align [⟨0, [1, 5]⟩, ⟨1, [2, 3]⟩]).1.getD 0 ⟨0, []⟩).divisions
      ∧ deriveBoundaries ((align [⟨0, [1, 5]⟩, ⟨1, [2, 3]⟩]).2.1)
          ((align [⟨0, [1, 5]⟩, ⟨1, [2, 3]⟩]).2.2) 1
        = ((align [⟨0, [1, 5]⟩, ⟨1, [2, 3]⟩]).1.getD 1 ⟨0, []⟩).divisions :=
  align_derive_boundaries ⟨0, [1, 5]⟩ ⟨1, [2, 3]⟩ (by decide) (by decide)
    (by decide) (by decide)

/-! ### Claim C2: outer joins of datasets with disjoint ranges -/

theorem bisect_left_append_all_ge {xs ys : List Int} {v : Int}
    (hxs : ∀ x ∈ xs, v ≤ x) (hys : ∀ y ∈ ys, v ≤ y) :
    bisect_left (xs ++ ys) v = 0 := by
  rw [bisect_left, List.countP_eq_zero]
  intro z hz
  simp only [decide_eq_true_eq]
  rcases List.mem_append.1 hz with hz | hz
  · have := hxs z hz; omega
  · have := hys z hz; omega

theorem bisect_left_append_split {xs ys : List Int} {v : Int}
    (hxs : ∀ x ∈ xs, x < v) (hys : ∀ y ∈ ys, v ≤ y) :
    bisect_left (xs ++ ys) v = xs.length := by
  rw [bisect_left, List.countP_append]
  have h1 : xs.countP (fun y => decide (y < v)) = xs.length :=
    List.countP_eq_length.2 (by
      intro z hz
      simp only [decide_eq_true_eq]
      exact hxs z hz)
  have h2 : ys.countP (fun y => decide (y < v)) = 0 :=
    List.countP_eq_zero.2 (by
      intro z hz
      simp only [decide_eq_true_eq]
      have := hys z hz
      omega)
  omega

theorem bisect_right_append_split {xs ys : List Int} {v : Int}
    (hxs : ∀ x ∈ xs, x ≤ v) (hys : ∀ y ∈ ys, v < y) :
    bisect_right (xs ++ ys) v = xs.length := by
  rw [bisect_right, List.countP_append]
  have h1 : xs.countP (fun y => decide (y ≤ v)) = xs.length :=
    List.countP_eq_length.2 (by
      intro z hz
      simp only [decide_eq_true_eq]
      exact hxs z hz)
  have h2 : ys.countP (fun y => decide (y ≤ v)) = 0 :=
    List.countP_eq_zero.2 (by
      intro z hz
      simp only [decide_eq_true_eq]
      have := hys z hz
      omega)
  omega

theorem bisect_right_append_all_le {xs ys : List Int} {v : Int}
    (hxs : ∀ x ∈ xs, x ≤ v) (hys : ∀ y ∈ ys, y ≤ v) :
    bisect_right (xs ++ ys) v = xs.length + ys.length := by
  rw [bisect_right, List.countP_append]
  have h1 : xs.countP (fun y => decide (y ≤ v)) = xs.length :=
    List.countP_eq_length.2 (by
      intro z hz
      simp only [decide_eq_true_eq]
      exact hxs z hz)
  have h2 : ys.countP (fun y => decide (y ≤ v)) = ys.length :=
    List.countP_eq_length.2 (by
      intro z hz
      simp only [decide_eq_true_eq]
      exact hys z hz)
  omega

/-- With the left input's range strictly below the right's, the common
boundary sequence is the concatenation of the two division lists. -/
theorem align2_divisions_sep (lhs rhs : DDF)
    (hl : lhs.divisions.Pairwise (· < ·))
    (hr : rhs.divisions.Pairwise (· < ·))
    (hsep : lhs.divisions.getLastD 0 < rhs.divisions.headI) :
    (align [lhs, rhs]).2.1 = lhs.divisions ++ rhs.divisions := by
  rw [align_divisions]
  have hm : merge_sorted ([lhs, rhs].map DDF.divisions)
      = merge2 lhs.divisions rhs.divisions := by
    show merge2 lhs.divisions (merge2 rhs.divisions []) = _
    rw [merge2_nil_right]
  rw [hm]
  have hcross : ∀ x ∈ lhs.divisions, ∀ y ∈ rhs.divisions, x ≤ y :=
    fun x hx y hy =>
      le_trans (le_getLastD_of_mem (hl.imp le_of_lt) x hx)
        (le_trans (le_of_lt hsep) (headI_le_of_mem (hr.imp le_of_lt) y hy))
  rw [merge2_append_of_le hcross]
  apply unique_eq_self
  have hpw : (lhs.divisions ++ rhs.divisions).Pairwise (· < ·) := by
    rw [List.pairwise_append]
    refine ⟨hl, hr, ?_⟩
    intro x hx y hy
    exact lt_of_le_of_lt (le_getLastD_of_mem (hl.imp le_of_lt) x hx)
      (lt_of_lt_of_le hsep (headI_le_of_mem (hr.imp le_of_lt) y hy))
  exact hpw.imp ne_of_lt

/-- Mirror of `align2_divisions_sep`: the right input's range strictly below
the left's. -/
theorem align2_divisions_sep_mirror (lhs rhs : DDF)
    (hl : lhs.divisions.Pairwise (· < ·))
    (hr : rhs.divisions.Pairwise (· < ·))
    (hsep : rhs.divisions.getLastD 0 < lhs.divisions.headI) :
    (align [lhs, rhs]).2.1 = rhs.divisions ++ lhs.divisions := by
  rw [align_divisions]
  have hm : merge_sorted ([lhs, rhs].map DDF.divisions)
      = merge2 lhs.divisions rhs.divisions := by
    show merge2 lhs.divisions (merge2 rhs.divisions []) = _
    rw [merge2_nil_right]
  rw [hm]
  have hcross : ∀ x ∈ lhs.divisions, ∀ y ∈ rhs.divisions, y < x :=
    fun x hx y hy =>
      lt_of_le_of_lt (le_getLastD_of_mem (hr.imp le_of_lt) y hy)
        (lt_of_lt_of_le hsep (headI_le_of_mem (hl.imp le_of_lt) x hx))
  rw [merge2_append_of_gt hcross]
  apply unique_eq_self
  have hpw : (rhs.divisions ++ lhs.divisions).Pairwise (· < ·) := by
    rw [List.pairwise_append]
    refine ⟨hr, hl, ?_⟩
    intro y hy x hx
    exact lt_of_le_of_lt (le_getLastD_of_mem (hr.imp le_of_lt) y hy)
      (lt_of_lt_of_le hsep (headI_le_of_mem (hl.imp le_of_lt) x hx))
  exact hpw.imp ne_of_lt

/-- Claim C2 (counterexample): the outer join of the disjoint datasets
`[1, 2, 3]` and `[5, 6, 7]` (2 partitions each) has 5 output partitions, not
2 + 2: the gap interval `[3, 5]` contributes an all-absent alignment row. -/
theorem join_outer_disjoint_count_not_sum :
    (join_indexed_dataframes ⟨0, [1, 2, 3]⟩ ⟨1, [5, 6, 7]⟩ "outer").map
        (fun res => res.2.length) = some 5
      ∧ (2 + 2 : Nat) ≠ 5 := by
  decide

/-- Claim C2 (amended): for any two strictly-sorted indexed datasets whose
boundary ranges are strictly separated, the outer join succeeds and its
partition count is the sum of the two inputs' partition counts *plus one*:
the gap interval between the ranges forms one alignment row with both slots
absent (emitted as the `None` descriptor); every other alignment row pairs a
present partition of one input with an absent slot for the other. -/
theorem join_outer_disjoint_counts (lhs rhs : DDF)
    (hl : lhs.divisions.Pairwise (· < ·))
    (hr : rhs.divisions.Pairwise (· < ·))
    (hl2 : 2 ≤ lhs.divisions.length) (hr2 : 2 ≤ rhs.divisions.length)
    (hdisj : lhs.divisions.getLastD 0 < rhs.divisions.headI
      ∨ rhs.divisions.getLastD 0 < lhs.divisions.headI) :
    ∃ d2 tasks, join_indexed_dataframes lhs rhs "outer" = some (d2, tasks)
      ∧ tasks.length
          = (lhs.divisions.length - 1) + (rhs.divisions.length - 1) + 1
      ∧ d2.length = tasks.length + 1
      ∧ ∃ g < tasks.length, tasks.getD g JoinTask.noneT = JoinTask.noneT
        ∧ ∀ r < tasks.length, r ≠ g →
            (∃ i, tasks.getD r JoinTask.noneT = JoinTask.leftOnly i)
            ∨ (∃ i, tasks.getD r JoinTask.noneT = JoinTask.rightOnly i) := by
  have hs : ∀ df ∈ [lhs, rhs], df.divisions.Pairwise (· ≤ ·) := by
    intro df hdf
    simp only [List.mem_cons, List.not_mem_nil, or_false] at hdf
    rcases hdf with rfl | rfl
    · exact hl.imp le_of_lt
    · exact hr.imp le_of_lt
  have hjoin : join_indexed_dataframes lhs rhs "outer"
      = some ((align [lhs, rhs]).2.1,
          ((align [lhs, rhs]).2.2).map (taskFor "outer")) := by
    rw [join_indexed_eq lhs rhs "outer" [] rfl]
    rfl
  have hML : (align [lhs, rhs]).2.2.length
      = ((align [lhs, rhs]).2.1).length - 1 := align_parts_length [lhs, rhs]
  have htlen : (((align [lhs, rhs]).2.2).map (taskFor "outer")).length
      = (align [lhs, rhs]).2.2.length := List.length_map _ _
  refine ⟨(align [lhs, rhs]).2.1,
    ((align [lhs, rhs]).2.2).map (taskFor "outer"), hjoin, ?_, ?_, ?_⟩
  case _ => -- partition count
    rcases hdisj with hsep | hsep
    · rw [htlen, hML, align2_divisions_sep lhs rhs hl hr hsep,
        List.length_append]
      omega
    · rw [htlen, hML, align2_divisions_sep_mirror lhs rhs hl hr hsep,
        List.length_append]
      omega
  case _ => -- boundary count
    rw [htlen, hML]
    rcases hdisj with hsep | hsep
    · rw [align2_divisions_sep lhs rhs hl hr hsep, List.length_append]
      omega
    · rw [align2_divisions_sep_mirror lhs rhs hl hr hsep, List.length_append]
      omega
  case _ => -- gap row and pairing
    have hv0 := fun r => align_presence [lhs, rhs] hs 0 (by norm_num) r
    have hv1 := fun r => align_presence [lhs, rhs] hs 1 (by norm_num) r
    simp only [show ([lhs, rhs].getD 0 ⟨0, []⟩) = lhs from rfl,
      show ([lhs, rhs].getD 1 ⟨0, []⟩) = rhs from rfl] at hv0 hv1
    have hlne : lhs.divisions ≠ [] := by
      intro hc; rw [hc] at hl2; simp at hl2
    have hrne : rhs.divisions ≠ [] := by
      intro hc; rw [hc] at hr2; simp at hr2
    have hlle : ∀ x ∈ lhs.divisions, x ≤ lhs.divisions.getLastD 0 :=
      le_getLastD_of_mem (hl.imp le_of_lt)
    have hlge : ∀ x ∈ lhs.divisions, lhs.divisions.headI ≤ x :=
      headI_le_of_mem (hl.imp le_of_lt)
    have hrle : ∀ x ∈ rhs.divisions, x ≤ rhs.divisions.getLastD 0 :=
      le_getLastD_of_mem (hr.imp le_of_lt)
    have hrge : ∀ x ∈ rhs.divisions, rhs.divisions.headI ≤ x :=
      headI_le_of_mem (hr.imp le_of_lt)
    have hlhl : lhs.divisions.headI ≤ lhs.divisions.getLastD 0 :=
      headI_le_getLastD (hl.imp le_of_lt)
    have hrhr : rhs.divisions.headI ≤ rhs.divisions.getLastD 0 :=
      headI_le_getLastD (hr.imp le_of_lt)
    rcases hdisj with hsep | hsep
    · -- left block first
      have hDeq := align2_divisions_sep lhs rhs hl hr hsep
      have ha0 : bisect_left ((align [lhs, rhs]).2.1) lhs.divisions.headI
          = 0 := by
        rw [hDeq]
        exact bisect_left_append_all_ge hlge
          (fun y hy => le_trans hlhl (le_trans (le_of_lt hsep) (hrge y hy)))
      have hb0 : bisect_right ((align [lhs, rhs]).2.1)
          (lhs.divisions.getLastD 0) = lhs.divisions.length := by
        rw [hDeq]
        exact bisect_right_append_split hlle
          (fun y hy => lt_of_lt_of_le hsep (hrge y hy))
      have ha1 : bisect_left ((align [lhs, rhs]).2.1) rhs.divisions.headI
          = lhs.divisions.length := by
        rw [hDeq]
        exact bisect_left_append_split
          (fun x hx => lt_of_le_of_lt (hlle x hx) hsep) hrge
      have hb1 : bisect_right ((align [lhs, rhs]).2.1)
          (rhs.divisions.getLastD 0)
          = lhs.divisions.length + rhs.divisions.length := by
        rw [hDeq]
        exact bisect_right_append_all_le
          (fun x hx => le_trans (hlle x hx)
            (le_trans (le_of_lt hsep) hrhr)) hrle
      have hDlen : ((align [lhs, rhs]).2.1).length
          = lhs.divisions.length + rhs.divisions.length := by
        rw [hDeq, List.length_append]
      simp only [ha0, hb0, ha1, hb1] at hv0 hv1
      refine ⟨lhs.divisions.length - 1, ?_, ?_, ?_⟩
      · rw [htlen, hML]
        omega
      · rw [getD_map (taskFor "outer") _ (lhs.divisions.length - 1)
          (by omega) [] JoinTask.noneT]
        have h0 : (((align [lhs, rhs]).2.2.getD (lhs.divisions.length - 1)
            []).getD 0 none) = none := by
          rw [hv0 (lhs.divisions.length - 1), if_neg (by omega)]
        have h1 : (((align [lhs, rhs]).2.2.getD (lhs.divisions.length - 1)
            []).getD 1 none) = none := by
          rw [hv1 (lhs.divisions.length - 1), if_neg (by omega)]
        rw [taskFor_none_none h0 h1]
      · intro r hrt hneq
        rw [htlen, hML] at hrt
        rw [getD_map (taskFor "outer") _ r (by omega) [] JoinTask.noneT]
        by_cases hcase : r < lhs.divisions.length - 1
        · left
          have h0 : (((align [lhs, rhs]).2.2.getD r []).getD 0 none)
              = some (r - 0) := by
            rw [hv0 r, if_pos (by omega)]
          have h1 : (((align [lhs, rhs]).2.2.getD r []).getD 1 none)
              = none := by
            rw [hv1 r, if_neg (by omega)]
          rw [taskFor_some_none h0 h1, if_pos (Or.inr rfl)]
          exact ⟨r - 0, rfl⟩
        · right
          have h0 : (((align [lhs, rhs]).2.2.getD r []).getD 0 none)
              = none := by
            rw [hv0 r, if_neg (by omega)]
          have h1 : (((align [lhs, rhs]).2.2.getD r []).getD 1 none)
              = some (r - lhs.divisions.length) := by
            rw [hv1 r, if_pos (by omega)]
          rw [taskFor_none_some h0 h1, if_pos (Or.inr rfl)]
          exact ⟨r - lhs.divisions.length, rfl⟩
    · -- right block first
      have hDeq := align2_divisions_sep_mirror lhs rhs hl hr hsep
      have ha0 : bisect_left ((align [lhs, rhs]).2.1) lhs.divisions.headI
          = rhs.divisions.length := by
        rw [hDeq]
        exact bisect_left_append_split
          (fun y hy => lt_of_le_of_lt (hrle y hy) hsep) hlge
      have hb0 : bisect_right ((align [lhs, rhs]).2.1)
          (lhs.divisions.getLastD 0)
          = rhs.divisions.length + lhs.divisions.length := by
        rw [hDeq]
        exact bisect_right_append_all_le
          (fun y hy => le_trans (hrle y hy)
            (le_trans (le_of_lt hsep) hlhl)) hlle
      have ha1 : bisect_left ((align [lhs, rhs]).2.1) rhs.divisions.headI
          = 0 := by
        rw [hDeq]
        exact bisect_left_append_all_ge hrge
          (fun x hx => le_trans hrhr (le_trans (le_of_lt hsep) (hlge x hx)))
      have hb1 : bisect_right ((align [lhs, rhs]).2.1)
          (rhs.divisions.getLastD 0) = rhs.divisions.length := by
        rw [hDeq]
        exact bisect_right_append_split hrle
          (fun x hx => lt_of_lt_of_le hsep (hlge x hx))
      have hDlen : ((align [lhs, rhs]).2.1).length
          = rhs.divisions.length + lhs.divisions.length := by
        rw [hDeq, List.length_append]
      simp only [ha0, hb0, ha1, hb1] at hv0 hv1
      refine ⟨rhs.divisions.length - 1, ?_, ?_, ?_⟩
      · rw [htlen, hML]
        omega
      · rw [getD_map (taskFor "outer") _ (rhs.divisions.length - 1)
          (by omega) [] JoinTask.noneT]
        have h0 : (((align [lhs, rhs]).2.2.getD (rhs.divisions.length - 1)
            []).getD 0 none) = none := by
          rw [hv0 (rhs.divisions.length - 1), if_neg (by omega)]
        have h1 : (((align [lhs, rhs]).2.2.getD (rhs.divisions.length - 1)
            []).getD 1 none) = none := by
          rw [hv1 (rhs.divisions.length - 1), if_neg (by omega)]
        rw [taskFor_none_none h0 h1]
      · intro r hrt hneq
        rw [htlen, hML] at hrt
        rw [getD_map (taskFor "outer") _ r (by omega) [] JoinTask.noneT]
        by_cases hcase : r < rhs.divisions.length - 1
        · right
          have h1 : (((align [lhs, rhs]).2.2.getD r []).getD 1 none)
              = some (r - 0) := by
            rw [hv1 r, if_pos (by omega)]
          have h0 : (((align [lhs, rhs]).2.2.getD r []).getD 0 none)
              = none := by
            rw [hv0 r, if_neg (by omega)]
          rw [taskFor_none_some h0 h1, if_pos (Or.inr rfl)]
          exact ⟨r - 0, rfl⟩
        · left
          have h0 : (((align [lhs, rhs]).2.2.getD r []).getD 0 none)
              = some (r - rhs.divisions.length) := by
            rw [hv0 r, if_pos (by omega)]
          have h1 : (((align [lhs, rhs]).2.2.getD r []).getD 1 none)
              = none := by
            rw [hv1 r, if_neg (by omega)]
          rw [taskFor_some_none h0 h1, if_pos (Or.inr rfl)]
          exact ⟨r - rhs.divisions.length, rfl⟩

/-- Claim C2 (witness): the amended statement at the disjoint inputs of the
counterexample. -/
theorem join_outer_disjoint_counts_witness :
    ∃ d2 tasks,
      join_indexed_dataframes ⟨0, [1, 2, 3]⟩ ⟨1, [5, 6, 7]⟩ "outer"
          = some (d2, tasks)
        ∧ tasks.length = (([1, 2, 3] : List Int).length - 1)
            + (([5, 6, 7] : List Int).length - 1) + 1
        ∧ d2.length = tasks.length + 1
        ∧ ∃ g < tasks.length, tasks.getD g JoinTask.noneT = JoinTask.noneT
          ∧ ∀ r < tasks.length, r ≠ g →
              (∃ i, tasks.getD r JoinTask.noneT = JoinTask.leftOnly i)
              ∨ (∃ i, tasks.getD r JoinTask.noneT = JoinTask.rightOnly i) :=
  join_outer_disjoint_counts ⟨0, [1, 2, 3]⟩ ⟨1, [5, 6, 7]⟩ (by decide)
    (by decide) (by decide) (by decide) (Or.inl (by decide))

end DaskMulti
